import Mathlib

/-!
Verification of the keepassc curses editor (src/keepassc/editor.py).

The editor keeps a document as a list of logical lines, each a list of
wrapped rows; rows are produced by Python textwrap.wrap at width
win_size_x - 1.  We embed strings as lists of characters, Python lists
as Lean lists with Python indexing semantics (negative indices address
from the end, out-of-range indexing raises, modelled as Option.none),
and each editor method as a function on an explicit EditorState record.
Fallible statements (indexing that can raise IndexError) make the
operations Option-valued; a none result models an uncaught exception
escaping to the host.

The model of textwrap.wrap follows CPython textwrap with its default
options (replace_whitespace, drop_whitespace, break_long_words) for
texts without hyphens or em-dashes; the hyphen splitting of
break_on_hyphens is not modelled, and theorems that depend on wrapping
restrict inputs accordingly.
-/

set_option linter.unusedVariables false

namespace KeepasscEditor

/-- A Python string, embedded as a list of characters. -/
abbrev Str := List Char

/-- One logical line: the list of its wrapped rows. -/
abbrev Line := List Str

/-- string.whitespace: the six ASCII whitespace characters.  This is
the character class textwrap._munge_whitespace translates to spaces
(its unicode_whitespace_trans table is built from string.whitespace
only). -/
def isPyWs (c : Char) : Bool :=
  c == ' ' || c == '\t' || c == '\n' || c == '\x0b' || c == '\x0c' || c == '\r'

/-- Py_UNICODE_ISSPACE: the characters str.isspace recognizes, hence
the set stripped by str.strip() / str.rstrip() and matched by the re
module's \s on str patterns (U+0009-U+000D, U+001C-U+001F, space,
U+0085, U+00A0, U+1680, U+2000-U+200A, U+2028, U+2029, U+202F,
U+205F, U+3000). -/
def isUniWs (c : Char) : Bool :=
  isPyWs c ||
  c == '\x1c' || c == '\x1d' || c == '\x1e' || c == '\x1f' ||
  c == '\x85' || c == '\xa0' || c == '\u1680' ||
  (0x2000 ≤ c.toNat && c.toNat ≤ 0x200a) ||
  c == '\u2028' || c == '\u2029' || c == '\u202f' || c == '\u205f' ||
  c == '\u3000'

/-- The line-boundary characters of str.splitlines (LF, CR, VT, FF,
U+001C-U+001E, U+0085, U+2028, U+2029; the CR LF pair counts as one
boundary and is handled in splitKeep itself). -/
def isLineBreak (c : Char) : Bool :=
  c == '\n' || c == '\r' || c == '\x0b' || c == '\x0c' ||
  c == '\x1c' || c == '\x1d' || c == '\x1e' || c == '\x85' ||
  c == '\u2028' || c == '\u2029'

/-- n spaces. -/
def spaces (n : Nat) : Str := List.replicate n ' '

/-- Python list indexing l[i]: negative indices count from the end,
out-of-range indexing raises IndexError (none). -/
def pyGet {α : Type} (l : List α) (i : Int) : Option α :=
  if 0 ≤ i then l.get? i.toNat
  else
    let j : Int := (l.length : Int) + i
    if 0 ≤ j then l.get? j.toNat else none

/-- Python del l[i]. -/
def pyDel {α : Type} (l : List α) (i : Int) : Option (List α) :=
  if 0 ≤ i then
    if i.toNat < l.length then some (l.eraseIdx i.toNat) else none
  else
    let j : Int := (l.length : Int) + i
    if 0 ≤ j then some (l.eraseIdx j.toNat) else none

/-- Python l.insert(i, x): the position is clamped into range, negative
positions count from the end. -/
def pyInsert {α : Type} (l : List α) (i : Int) (x : α) : List α :=
  let n : Nat :=
    if 0 ≤ i then min i.toNat l.length
    else ((l.length : Int) + i).toNat
  l.take n ++ x :: l.drop n

/-- Python slice s[:i]. -/
def pyTake (s : Str) (i : Int) : Str :=
  if 0 ≤ i then s.take i.toNat else s.take ((s.length : Int) + i).toNat

/-- Python slice s[i:]. -/
def pyDrop (s : Str) (i : Int) : Str :=
  if 0 ≤ i then s.drop i.toNat else s.drop ((s.length : Int) + i).toNat

/-- Python assignment l[i] = x for a nonnegative index (the editor only
assigns nonnegative row/line indices); raises if out of range. -/
def pySet {α : Type} (l : List α) (i : Nat) (x : α) : Option (List α) :=
  if i < l.length then some (l.set i x) else none

/-- " ".join of rows. -/
def joinSp (rows : List Str) : Str := List.intercalate [' '] rows

/-- "\n".join of lines (after joining each line's rows by spaces): the
editor's exit serialization. -/
def serialize (text : List Line) : Str :=
  List.intercalate ['\n'] (text.map joinSp)

/-- Python s.rstrip(): drops trailing characters of the full
Py_UNICODE_ISSPACE set. -/
def rstripWs (s : Str) : Str := (s.reverse.dropWhile (fun c => isUniWs c)).reverse

/-- Python s.split(' '): split on every single space; never empty. -/
def splitSp : Str → List Str
  | [] => [[]]
  | c :: cs =>
    if c = ' ' then [] :: splitSp cs
    else
      match splitSp cs with
      | [] => [[c]]
      | w :: r => (c :: w) :: r

/-- str.splitlines(keepends=True): split after every line-boundary
character, the CR LF pair forming a single boundary.  A lone final
character always forms the last line, boundary or not. -/
def splitKeep : Str → List Str
  | [] => []
  | [c] => [[c]]
  | c :: d :: cs =>
    if c = '\r' then
      if d = '\n' then ['\r', '\n'] :: splitKeep cs
      else ['\r'] :: splitKeep (d :: cs)
    else if isLineBreak c then [c] :: splitKeep (d :: cs)
    else
      match splitKeep (d :: cs) with
      | [] => [[c]]
      | l :: ls => (c :: l) :: ls

/-- str.expandtabs() with tab size 8 (column resets at CR/LF). -/
def expandTabsGo (col : Nat) : Str → Str
  | [] => []
  | c :: cs =>
    if c = '\t' then
      let n := 8 - col % 8
      spaces n ++ expandTabsGo (col + n) cs
    else if c = '\n' ∨ c = '\r' then c :: expandTabsGo 0 cs
    else c :: expandTabsGo (col + 1) cs

/-- textwrap._munge_whitespace: expand tabs, then replace each
whitespace character by a single space. -/
def munge (s : Str) : Str :=
  (expandTabsGo 0 s).map (fun c => if isPyWs c then ' ' else c)

/-- Chunk accumulator: gather maximal runs of \s-whitespace /
non-whitespace. -/
def chunksGo (cur : Str) (curIsSpace : Bool) : Str → List Str
  | [] => [cur.reverse]
  | c :: cs =>
    if isUniWs c = curIsSpace then chunksGo (c :: cur) curIsSpace cs
    else cur.reverse :: chunksGo [c] (isUniWs c) cs

/-- textwrap._split on munged text, for hyphen-free input: maximal
runs of \s-whitespace alternate with maximal runs of word
characters. -/
def chunksOf : Str → List Str
  | [] => []
  | c :: cs => chunksGo [c] (isUniWs c) cs

/-- Total length of a list of chunks. -/
def sumLen (l : List Str) : Nat := (l.map List.length).sum

/-- A chunk is whitespace if all its characters are (Python
chunk.strip() == '' with the full strip character set; the empty chunk
counts as whitespace). -/
def isWsChunk (c : Str) : Bool := c.all (fun d => isUniWs d)

/-- Greedy packing of the inner while-loop of textwrap._wrap_chunks:
take chunks while the running length stays within the width. -/
def greedyTake (w : Nat) : Nat → List Str → List Str × List Str
  | _, [] => ([], [])
  | curLen, ch :: rest =>
    if curLen + ch.length ≤ w then
      let p := greedyTake w (curLen + ch.length) rest
      (ch :: p.1, p.2)
    else ([], ch :: rest)

/-- Drop a trailing whitespace chunk from the current line
(textwrap drop_whitespace, trailing side; a single del). -/
def dropTrailWs (cur : List Str) : List Str :=
  match cur.getLast? with
  | some c => if isWsChunk c then cur.dropLast else cur
  | none => cur

/-- One iteration of the outer loop of textwrap._wrap_chunks: drop a
leading whitespace chunk (if some line was already output), greedily
fill the line, break a long word if the next chunk exceeds the whole
width, drop trailing whitespace, and emit the line if nonempty. -/
def wrapStep (w : Nat) (hasLines : Bool) (chunks : List Str) :
    Option Str × List Str :=
  let chunks1 :=
    match chunks with
    | c :: rest => if hasLines ∧ isWsChunk c then rest else chunks
    | [] => []
  let p := greedyTake w 0 chunks1
  let q :=
    match p.2 with
    | c :: r =>
      if c.length > w then
        let spaceLeft := if w < 1 then 1 else w - sumLen p.1
        (p.1 ++ [c.take spaceLeft], c.drop spaceLeft :: r)
      else (p.1, p.2)
    | [] => (p.1, p.2)
  let cur := dropTrailWs q.1
  (if cur = [] then none else some cur.flatten, q.2)

/-- Fuel-indexed outer loop of textwrap._wrap_chunks. -/
def wrapGo (w : Nat) : Nat → List Str → Bool → List Str → List Str
  | 0, _, _, acc => acc.reverse
  | fuel + 1, chunks, hasLines, acc =>
    match chunks with
    | [] => acc.reverse
    | _ =>
      let s := wrapStep w hasLines chunks
      match s.1 with
      | some l => wrapGo w fuel s.2 true (l :: acc)
      | none => wrapGo w fuel s.2 hasLines acc

/-- textwrap.wrap(s, w) with default options (see module comment for
the modelling scope).  Each outer iteration strictly decreases
chunk-count plus total length, so this fuel always suffices. -/
def wrapL (w : Nat) (s : Str) : List Str :=
  let ch := chunksOf (munge s)
  wrapGo w (sumLen ch + ch.length + 1) ch false []

/-!
## Editor state

One record per Python instance attribute the core engine uses.  The
curses window objects, title/box drawing and locale setup are the
external rendering collaborator and carry no buffer state.  The Python
attribute text is normally the row structure; quit_nosave / close
replace it by the False / -1 sentinels, modelled as the cancelled and
aborted flags so that text keeps its type.
-/

structure EditorState where
  text : List Line
  curPosY : Int
  curPosX : Int
  yOffset : Int
  xOffset : Int
  winSizeY : Int
  winSizeX : Int
  maxTextSize : Nat
  pwMode : Bool
  xScroll : Bool
  spaceCounter : Nat
  maxCols : Int
  numRows : Nat
  bufferIdxY : Int
  bufferIdxX : Int
  bufferList : List (Nat × Nat × Str)
  bufLength : Nat
  cancelled : Bool
  aborted : Bool
deriving Repr, DecidableEq

/-- The flattened row list of buffer_set: one (line, row, text) triple
per wrapped row, with the (0, 0, "") sentinel when there are no rows. -/
def buildBufferList (text : List Line) : List (Nat × Nat × Str) :=
  let l := text.enum.flatMap (fun p => p.2.enum.map (fun q => (p.1, q.1, q.2)))
  if l = [] then [(0, 0, [])] else l

/-- Editor.buffer_set: recompute the derived buffer fields; reading the
row addressed by buffer_idx_y raises IndexError when out of range. -/
def bufferSet (s : EditorState) : Option EditorState :=
  let rowLens := s.text.flatMap (fun line => line.map List.length)
  let maxCols : Int :=
    ((if rowLens = [] then [s.winSizeX.toNat] else rowLens).foldl max 0 : Nat)
  let numRows := (s.text.map List.length).sum
  let bufferIdxY := s.curPosY + s.yOffset
  let bufferList := buildBufferList s.text
  match pyGet bufferList bufferIdxY with
  | none => none
  | some e =>
    some { s with maxCols := maxCols, numRows := numRows,
                  bufferIdxY := bufferIdxY, bufferList := bufferList,
                  bufLength := e.2.2.length,
                  bufferIdxX := s.curPosX + s.xOffset }

/-- Editor.end_of_line_check. -/
def endOfLineCheck (s : EditorState) : Option EditorState := do
  let s ← bufferSet s
  pure (if s.curPosX > (s.bufLength : Int)
        then { s with curPosX := (s.bufLength : Int) } else s)

/-- Editor.up. -/
def up (s : EditorState) : Option EditorState :=
  let s :=
    if s.curPosY > 0 then { s with curPosY := s.curPosY - 1 }
    else { s with yOffset := max 0 (s.yOffset - 1) }
  endOfLineCheck s

/-- Editor.down (the middle branch returns without the end-of-line
clamp). -/
def down (s : EditorState) : Option EditorState :=
  if s.curPosY < s.winSizeY - 1 ∧ s.bufferIdxY < (s.numRows : Int) - 1 then
    endOfLineCheck { s with curPosY := s.curPosY + 1 }
  else if s.bufferIdxY = (s.numRows : Int) - 1 then some s
  else
    endOfLineCheck
      { s with yOffset := min ((s.numRows : Int) - s.winSizeY) (s.yOffset + 1) }

/-- Editor.left. -/
def left (s : EditorState) : Option EditorState :=
  if s.curPosX > 0 then some { s with curPosX := s.curPosX - 1 }
  else if s.curPosY > 0 then do
    let s ← up s
    endOfLineCheck { s with curPosX := s.maxCols }
  else some s

/-- Editor.right. -/
def right (s : EditorState) : Option EditorState :=
  if s.curPosX < (s.bufLength : Int) then some { s with curPosX := s.curPosX + 1 }
  else if s.bufferIdxY < (s.numRows : Int) - 1 then down { s with curPosX := 0 }
  else some s

/-- Editor.end. -/
def endOp (s : EditorState) : EditorState := { s with curPosX := (s.bufLength : Int) }

/-- Editor.home. -/
def home (s : EditorState) : EditorState := { s with curPosX := 0 }

/-- Editor.page_up. -/
def pageUp (s : EditorState) : Option EditorState :=
  endOfLineCheck { s with yOffset := max 0 (s.yOffset - s.winSizeY) }

/-- Editor.page_down (negative offsets are corrected before the
end-of-line clamp). -/
def pageDown (s : EditorState) : Option EditorState :=
  let o := min ((s.numRows : Int) - s.winSizeY - 1) (s.yOffset + s.winSizeY)
  endOfLineCheck { s with yOffset := max 0 o }

/-- Editor.get_cur_word: the word to the left of buffer_idx_x in the
given row text (last fragment when moving forward, first otherwise). -/
def getCurWord (s : EditorState) (text : Str) (forward : Bool) : Str :=
  let parts := splitSp (pyTake text s.bufferIdxX)
  if forward then (pyGet parts (-1)).getD []
  else (pyGet parts 0).getD []

/-- Editor.word_wrap_jump: re-anchor the cursor when the current word
was moved across a row boundary by a rewrap. -/
def wordWrapJump (curWord curWordWrapd : Str) (s : EditorState) :
    Option EditorState :=
  if curWord ≠ curWordWrapd ∧ curWord ≠ [] then
    match pyGet s.bufferList (s.bufferIdxY - 1) with
    | none => none
    | some prev =>
      if curWord.isSuffixOf prev.2.2 ∨ curWord.dropLast.isSuffixOf prev.2.2 then do
        let s ← up s
        pure (endOp s)
      else
        match pyGet s.bufferList s.bufferIdxY with
        | none => none
        | some cur =>
          if curWord.isPrefixOf cur.2.2 ∨ curWord.dropLast.isPrefixOf cur.2.2 then
            some { s with curPosX := (curWord.length : Int) + 1 }
          else some s
  else some s

/-- The character path of Editor.insert_char: the character is
inserted at buffer_idx_x of the addressed row, the logical line is
rewrapped, space_counter spaces are re-appended, then the cursor moves
right and the word-wrap jump runs. -/
def insertCharCh (c : Char) (s : EditorState) : Option EditorState := do
  let e ← pyGet s.bufferList s.bufferIdxY
  let ln := e.1
  let r := e.2.1
  let line := e.2.2
  let newRow := pyInsert line s.bufferIdxX c
  let lineA ← s.text.get? ln
  let lineB ← pySet lineA r newRow
  let textA ← pySet s.text ln lineB
  let sc := newRow.length - (rstripWs newRow).length + 1
  let s1 : EditorState := { s with text := textA, spaceCounter := sc }
  let curWord := getCurWord s1 newRow true
  let lnRows ← s1.text.get? ln
  let wrapped := wrapL (s1.winSizeX - 1).toNat (joinSp lnRows)
  let wrapped := if wrapped = [] then [[]] else wrapped
  let textB ← pySet s1.text ln wrapped
  let s2 : EditorState := { s with text := textB, spaceCounter := sc }
  let rowAfter ← wrapped.get? r
  let curWordWrapd := getCurWord s2 rowAfter true
  let s3 ←
    if sc ≠ 0 then do
      let e2 ← pyGet s2.bufferList s2.bufferIdxY
      let rows2 ← s2.text.get? e2.1
      let row2 ← rows2.get? e2.2.1
      let rows3 ← pySet rows2 e2.2.1 (row2 ++ spaces sc)
      let textC ← pySet s2.text e2.1 rows3
      pure { s with text := textC, spaceCounter := sc }
    else pure s2
  let s4 ← bufferSet s3
  let s5 ← right s4
  wordWrapJump curWord curWordWrapd s5

/-- A key event from get_wch: either a decoded character or an integer
code for a special key. -/
inductive Key where
  | ch (c : Char)
  | code (n : Int)
deriving Repr, DecidableEq

/-- Editor.insert_char: integer key codes (certain unhandled special
keys, for which get_wch returns an int) are skipped immediately;
characters are inserted. -/
def insertChar (c : Key) (s : EditorState) : Option EditorState :=
  match c with
  | .code _ => some s
  | .ch c => insertCharCh c s

/-- Editor.insert_tab: four space insertions. -/
def insertTab (s : EditorState) : Option EditorState := do
  let s ← insertChar (Key.ch ' ') s
  let s ← insertChar (Key.ch ' ') s
  let s ← insertChar (Key.ch ' ') s
  insertChar (Key.ch ' ') s

/-- Loop signal: handlers normally continue the loop; quit-style
handlers stop it. -/
inductive Sig where
  | cont
  | stop
deriving Repr, DecidableEq

/-- Editor.insert_line_or_quit: commit in single-line mode, no-op at
the row cap, otherwise split the addressed row at the cursor column
into two logical lines. -/
def insertLineOrQuit (s : EditorState) : Option (Sig × EditorState) := do
  if s.maxTextSize = 1 then
    pure (Sig.stop, s)
  else if s.numRows = s.maxTextSize then
    pure (Sig.cont, s)
  else
    let e ← pyGet s.bufferList s.bufferIdxY
    let ln := e.1
    let r := e.2.1
    let line := e.2.2
    let newline := pyDrop line s.curPosX
    let linePre := pyTake line s.curPosX
    let rows ← s.text.get? ln
    let oldline1 := rows.take r ++ [linePre]
    let oldline2 := newline :: rows.drop (r + 1)
    let textB ← pyDel s.text (ln : Int)
    let textB := pyInsert textB (ln : Int) oldline2
    let textB := pyInsert textB (ln : Int) oldline1
    let s ← bufferSet { s with text := textB }
    let s ← down { s with curPosX := 0 }
    pure (Sig.cont, s)

/-- Common tail of Editor.backspace (lines 480-487 of the source):
recompute the current word, rewrap the logical line, rebuild the
buffer and apply the word-wrap jump. -/
def backspaceTail (ln r : Nat) (s : EditorState) : Option EditorState := do
  let rows ← s.text.get? ln
  let rowR ← rows.get? r
  let curWord := getCurWord s rowR false
  let wrapped := wrapL (s.winSizeX - 1).toNat (joinSp rows)
  let wrapped := if wrapped = [] then [[]] else wrapped
  let textB ← pySet s.text ln wrapped
  let sB : EditorState := { s with text := textB }
  let curWordWrapd :=
    match wrapped.get? r with
    | some rowAfter => getCurWord sB rowAfter false
    | none => []
  let sC ← bufferSet sB
  wordWrapJump curWord curWordWrapd sC

/-- Editor.backspace. -/
def backspace (s : EditorState) : Option EditorState := do
  let e ← pyGet s.bufferList s.bufferIdxY
  let ln := e.1
  let r := e.2.1
  let line := e.2.2
  if s.curPosX > 0 then
    match pyDel line (s.bufferIdxX - 1) with
    | some line2 => do
      let rowsA ← s.text.get? ln
      let rowsB ← pySet rowsA r line2
      let textA ← pySet s.text ln rowsB
      let sA : EditorState := { s with text := textA }
      let sL ← left sA
      backspaceTail ln r sL
    | none => do
      let lineE := line ++ spaces (if s.spaceCounter = 0 then 1 else s.spaceCounter)
      let line2 ← pyDel lineE (s.bufferIdxX - 1)
      let sc2 := s.spaceCounter - 1
      let line3 := if line2 = [] then [' '] else line2
      let rowsA ← s.text.get? ln
      let rowsB ← pySet rowsA r line3
      let textA ← pySet s.text ln rowsB
      let sA : EditorState := { s with text := textA, spaceCounter := sc2 }
      let sL ← left sA
      backspaceTail ln r sL
  else if s.curPosX = 0 ∧ s.bufferIdxY > 0 then do
    let s ← left s
    let s := { s with curPosX := max 0 (s.curPosX - 1) }
    let e0 ← pyGet s.bufferList s.bufferIdxY
    let ln0 := e0.1
    let r0 := e0.2.1
    let line0 := e0.2.2
    let s ←
      if line0 ≠ [] then do
        let rows0 ← s.text.get? ln0
        let rows0 ← pySet rows0 r0 line0.dropLast
        let textA ← pySet s.text ln0 rows0
        let s := { s with text := textA }
        if ln0 < ln then do
          let rows0 ← s.text.get? ln0
          let rowsLn ← s.text.get? ln
          let textB ← pySet s.text ln0 (rows0 ++ rowsLn)
          let textB ← pyDel textB (ln : Int)
          pure { s with text := textB }
        else pure s
      else do
        let textA ← pyDel s.text (ln0 : Int)
        pure { s with text := textA }
    backspaceTail ln0 r s
  else if s.curPosX = 0 ∧ s.bufferIdxY = 0 ∧ line = [] then do
    let textA ← pyDel s.text (ln : Int)
    pure { s with text := textA }
  else
    backspaceTail ln r s

/-- Editor.del_char: delete the character under the cursor and rewrap
the logical line; neither the cursor nor the buffer index moves. -/
def delChar (s : EditorState) : Option EditorState := do
  let e ← pyGet s.bufferList s.bufferIdxY
  let ln := e.1
  let r := e.2.1
  let line := e.2.2
  let line2 ←
    if line ≠ [] ∧ s.curPosX < (line.length : Int) then pyDel line s.bufferIdxX
    else pure line
  let rows ← s.text.get? ln
  let rows ← pySet rows r line2
  let textA ← pySet s.text ln rows
  let rowsA ← textA.get? ln
  let wrapped := wrapL (s.winSizeX - 1).toNat (joinSp rowsA)
  let wrapped := if wrapped = [] then [[]] else wrapped
  let textB ← pySet textA ln wrapped
  pure { s with text := textB }

/-- Editor.del_to_eol. -/
def delToEol (s : EditorState) : Option EditorState := do
  let e ← pyGet s.bufferList s.bufferIdxY
  let rows ← s.text.get? e.1
  let rows ← pySet rows e.2.1 (pyTake e.2.2 s.curPosX)
  let textA ← pySet s.text e.1 rows
  pure { s with text := textA }

/-- Editor.del_to_bol. -/
def delToBol (s : EditorState) : Option EditorState := do
  let e ← pyGet s.bufferList s.bufferIdxY
  let rows ← s.text.get? e.1
  let rows ← pySet rows e.2.1 (pyDrop e.2.2 s.curPosX)
  let textA ← pySet s.text e.1 rows
  pure { s with curPosX := 0, text := textA }

/-!
## Key dispatch and session loop
-/

/-- The handlers bound in Editor.keys_init. -/
inductive Act where
  | actBackspace
  | actDown
  | actEnd
  | actEnter
  | actHome
  | actDelChar
  | actLeft
  | actPageDown
  | actPageUp
  | actRight
  | actUp
  | actHelp
  | actQuit
  | actQuitNosave
  | actResize
  | actDelToBol
  | actDelToEol
  | actClose
  | actInsertTab
deriving Repr, DecidableEq

/-- The integer-keyed entries of the dispatch dictionary (curses
KEY_ constants and the -1 resize sentinel). -/
def lookupCode (n : Int) : Option Act :=
  if n = 263 then some .actBackspace
  else if n = 258 then some .actDown
  else if n = 360 then some .actEnd
  else if n = 343 then some .actEnter
  else if n = 262 then some .actHome
  else if n = 330 then some .actDelChar
  else if n = 260 then some .actLeft
  else if n = 338 then some .actPageDown
  else if n = 339 then some .actPageUp
  else if n = 261 then some .actRight
  else if n = 259 then some .actUp
  else if n = 265 then some .actHelp
  else if n = 266 then some .actQuit
  else if n = 269 then some .actQuitNosave
  else if n = 410 then some .actResize
  else if n = -1 then some .actResize
  else none

/-- The character-keyed entries of the dispatch dictionary (control
characters, DEL, newline, tab). -/
def lookupChar (c : Char) : Option Act :=
  if c = '\x18' then some .actQuit
  else if c = '\x15' then some .actDelToBol
  else if c = '\x0b' then some .actDelToEol
  else if c = '\x04' then some .actClose
  else if c = '\x7f' then some .actBackspace
  else if c = '\n' then some .actEnter
  else if c = '\x08' then some .actBackspace
  else if c = '\x1b' then some .actQuitNosave
  else if c = '\x03' then some .actClose
  else if c = '\t' then some .actInsertTab
  else none

/-- Editor.keys lookup. -/
def lookupKey : Key → Option Act
  | .ch c => lookupChar c
  | .code n => lookupCode n

/-- Run one bound handler.  help only draws the popup, an external
collaborator, leaving the core state unchanged.  resize re-runs
win_init (which resets the cursor and offsets from a geometry
negotiated with the terminal driver) and rewraps the document; the new
geometry is an external input with no counterpart in this embedding,
so the arm is modelled as the identity and no theorem in this file
relies on it.  quit_nosave and close install the cancel / abort
sentinels the source stores in self.text. -/
def runAct (a : Act) (s : EditorState) : Option (Sig × EditorState) :=
  match a with
  | .actBackspace => (backspace s).map (fun t => (Sig.cont, t))
  | .actDown => (down s).map (fun t => (Sig.cont, t))
  | .actEnd => some (Sig.cont, endOp s)
  | .actEnter => insertLineOrQuit s
  | .actHome => some (Sig.cont, home s)
  | .actDelChar => (delChar s).map (fun t => (Sig.cont, t))
  | .actLeft => (left s).map (fun t => (Sig.cont, t))
  | .actPageDown => (pageDown s).map (fun t => (Sig.cont, t))
  | .actPageUp => (pageUp s).map (fun t => (Sig.cont, t))
  | .actRight => (right s).map (fun t => (Sig.cont, t))
  | .actUp => (up s).map (fun t => (Sig.cont, t))
  | .actHelp => some (Sig.cont, s)
  | .actQuit => some (Sig.stop, s)
  | .actQuitNosave => some (Sig.stop, { s with cancelled := true })
  | .actResize => some (Sig.cont, s)
  | .actDelToBol => (delToBol s).map (fun t => (Sig.cont, t))
  | .actDelToEol => (delToEol s).map (fun t => (Sig.cont, t))
  | .actClose => some (Sig.stop, { s with aborted := true })
  | .actInsertTab => (insertTab s).map (fun t => (Sig.cont, t))

/-- Editor.get_key: look the event up in the dispatch table; a lookup
miss (KeyError) is caught and routed to insert_char, and the loop
continues.  insert_char on an integer code returns immediately. -/
def getKeyStep (k : Key) (s : EditorState) : Option (Sig × EditorState) :=
  match lookupKey k with
  | some a => runAct a s
  | none => (insertChar k s).map (fun t => (Sig.cont, t))

/-- Session result: the saved text, or the cancel / abort sentinel. -/
inductive SessionResult where
  | saved (t : Str)
  | cancelled
  | aborted
deriving Repr, DecidableEq

/-- Editor.exit: serialize the document ("\n".join of " ".join of each
line's rows), unless a sentinel was installed. -/
def exitResult (s : EditorState) : SessionResult :=
  if s.aborted then SessionResult.aborted
  else if s.cancelled then SessionResult.cancelled
  else SessionResult.saved (serialize s.text)

/-- One turn of Editor.run: dispatch the key; on a stop signal leave
the loop and return the exit result, otherwise refresh the buffer
(buffer_set) and redraw. -/
inductive Outcome where
  | finished (r : SessionResult)
  | editing (s : EditorState)
deriving Repr, DecidableEq

def runStep (k : Key) (s : EditorState) : Option Outcome := do
  let p ← getKeyStep k s
  match p.1 with
  | Sig.stop => pure (Outcome.finished (exitResult p.2))
  | Sig.cont => do
    let s ← bufferSet p.2
    pure (Outcome.editing s)

/-!
## Construction (Editor.__init__ / text_init)

The geometry negotiation of win_init (clamping the requested window to
the terminal size) consults the terminal driver; the model takes the
resulting win_size values directly.
-/

/-- Editor.text_init on an already-constructed state. -/
def textInit (inittext : Str) (s : EditorState) : Option EditorState := do
  let t := splitKeep inittext
  let text :=
    if s.xScroll = false then
      t.map (fun i =>
        let w := wrapL (s.winSizeX - 1).toNat i
        if w = [] then [[' ']] else w)
    else [t]
  let s ← bufferSet { s with text := text }
  pure (if 0 < s.maxTextSize ∧ s.maxTextSize < s.numRows
        then { s with maxTextSize := s.numRows } else s)

/-- Editor.__init__: empty initial text is replaced by a single space;
single-line windows capped at one row scroll horizontally instead of
wrapping. -/
def initEditor (inittext : Str) (winSizeY winSizeX : Int)
    (maxTextSize : Nat) (pwMode : Bool) : Option EditorState :=
  let s : EditorState :=
    { text := [], curPosY := 0, curPosX := 0, yOffset := 0, xOffset := 0,
      winSizeY := winSizeY, winSizeX := winSizeX,
      maxTextSize := maxTextSize, pwMode := pwMode,
      xScroll := decide (winSizeY < 2 ∧ maxTextSize = 1),
      spaceCounter := 0, maxCols := 0, numRows := 0,
      bufferIdxY := 0, bufferIdxX := 0, bufferList := [], bufLength := 0,
      cancelled := false, aborted := false }
  textInit (if inittext = [] then [' '] else inittext) s

/-!
## Display

Editor.display emits drawing commands to the rendering collaborator:
for each visible row a cursor move, a clear-to-end-of-line, the row
text (only when not in password mode) and the debug status string on
the box window.
-/

inductive DrawCmd where
  | moveCursor (y x : Nat)
  | clearLine (y : Nat)
  | drawRow (y : Nat) (t : Str)
  | drawStatus (spaceCounter : Nat) (curPosX bufferIdxX : Int) (bufLength : Nat)
deriving Repr, DecidableEq

/-- Python slice l[a:b] for the visible window. -/
def pySlice {α : Type} (l : List α) (a b : Int) : List α :=
  let n := l.length
  let norm : Int → Nat := fun i => if 0 ≤ i then i.toNat else ((n : Int) + i).toNat
  (l.take (norm b)).drop (norm a)

/-- Editor.display as the emitted command list. -/
def displayCmds (s : EditorState) : List DrawCmd :=
  let hi := if s.yOffset + s.winSizeY = 0 then 1 else s.yOffset + s.winSizeY
  let window := pySlice s.bufferList s.yOffset hi
  window.enum.flatMap (fun p =>
    [DrawCmd.moveCursor p.1 0, DrawCmd.clearLine p.1] ++
    (if s.pwMode then [] else [DrawCmd.drawRow p.1 p.2.2.2]) ++
    [DrawCmd.drawStatus s.spaceCounter s.curPosX s.bufferIdxX s.bufLength])

/-- One loop turn that is expected to stay in the editing state. -/
def stepEditing (k : Key) (s : EditorState) : Option EditorState :=
  match runStep k s with
  | some (Outcome.editing t) => some t
  | _ => none

/-!
## Concrete traces used to settle claims against the code
-/

/-- Initial text abc in a width-10 window, End, then typing d. -/
def c1State : Option EditorState := do
  let s ← initEditor ("abc".toList) 5 10 0 false
  let s ← stepEditing (Key.code 360) s
  stepEditing (Key.ch 'd') s

/-- Initial text ab cd in a width-5 window (wrap width 4, rows ab and
cd), Down, Right, then the Delete handler. -/
def c3State : Option EditorState := do
  let s ← initEditor ("ab cd".toList) 5 5 0 false
  let s ← stepEditing (Key.code 258) s
  let s ← stepEditing (Key.code 261) s
  delChar s

/-- Default initial text (one space), Enter, Backspace, Backspace. -/
def c4State : Option EditorState := do
  let s ← initEditor (" ".toList) 5 5 0 false
  let s ← stepEditing (Key.ch '\n') s
  let s ← stepEditing (Key.code 263) s
  stepEditing (Key.code 263) s

/-- Initial text ab, End, typing c: reaches the reachable state whose
single row is abc followed by the stray space the insertion appended,
with the cursor at column 3 (strictly inside the row). -/
def c5PreState : Option EditorState := do
  let s ← initEditor ("ab".toList) 5 10 0 false
  let s ← stepEditing (Key.code 360) s
  stepEditing (Key.ch 'c') s

/-- From that state: insert d, then backspace. -/
def c5PostState : Option EditorState := do
  let s ← c5PreState
  let s ← stepEditing (Key.ch 'd') s
  backspace s

/-!
## Claim theorems
-/

/-- C1: the space-preservation claim fails on the code: insert_char
computes space_counter as the number of dropped trailing spaces PLUS
ONE, and the re-append is therefore never a no-op.  Typing d at the end
of the line abc (where the rewrap drops no trailing space) leaves the
logical line abcd followed by one stray space, so the line content does
not equal the text as it stood immediately after the insertion: an
extra character has been added. -/
theorem C1_insert_appends_extra_space :
    c1State.map (fun s => joinSp (s.text.headD [])) =
      some ['a', 'b', 'c', 'd', ' '] ∧
    (['a', 'b', 'c', 'd', ' '] : Str) ≠ ['a', 'b', 'c', 'd'] := by
  exact ⟨by decide, by decide⟩

/-- C3: the cursor bound invariant fails on the code: with rows ab, cd
(wrap width 4) and the cursor on the second row, deleteChar removes a
character, the rewrap merges the line into the single row ab c, and the
buffer-absolute cursor row remains 1 while only 1 row exists, violating
bufferRow < totalRows; the next buffer_set then raises IndexError. -/
theorem C3_cursor_bound_violation :
    c3State.map (fun s => (s.curPosY + s.yOffset, (s.text.map List.length).sum)) =
      some ((1 : Int), (1 : Nat)) ∧
    c3State.bind bufferSet = none := by
  exact ⟨by decide, by decide⟩

/-- C4 counterexample: the document does not always keep at least one
logical line.  From the default document (one line holding one space),
Enter creates an empty first line, a first backspace deletes it leaving
the single logical line with the empty row, and a second backspace
takes the top-of-file branch and deletes that line outright: the
document is left with zero logical lines. -/
theorem C4_document_nonempty_counterexample :
    c4State.map (fun s => s.text) = some [] := by
  decide

/-- Any rebuilt buffer row list is nonempty (the sentinel row is added
when the document has no rows). -/
theorem buildBufferList_ne_nil (text : List Line) : buildBufferList text ≠ [] := by
  simp only [buildBufferList]
  split
  · simp
  · next h => exact h

/-- C4 amended: what the code maintains is non-emptiness of the
flattened BufferIndex, not of the document: the document itself can
reach zero logical lines (see the counterexample), and buffer_set then
represents it by the single sentinel row (0, 0, empty string), so after
every operation the rebuilt row list contains at least one row. -/
theorem C4_bufferindex_nonempty_amended (s t : EditorState)
    (h : bufferSet s = some t) : t.bufferList ≠ [] := by
  simp only [bufferSet] at h
  cases hp : pyGet (buildBufferList s.text) (s.curPosY + s.yOffset) with
  | none => rw [hp] at h; cases h
  | some e =>
    rw [hp] at h
    cases h
    exact buildBufferList_ne_nil s.text

/-- C2 counterexample: the round-trip fails for the initial text a
followed by a space, which contains no word longer than the viewport
width: the wrap drops the trailing space and the serialized text is a
alone. -/
theorem C2_roundtrip_counterexample :
    (initEditor ("a ".toList) 5 10 0 false).map (fun s => serialize s.text) =
      some ['a'] ∧ (['a'] : Str) ≠ ['a', ' '] := by
  exact ⟨by decide, by decide⟩

/-- C5 counterexample: insert-then-backspace is not an inverse on
every state.  In the reachable state whose single row is abc plus a
trailing space with the cursor at column 3 (strictly inside the row),
inserting d and then backspacing returns the cursor to column 3 but
leaves the row abc: the trailing space of the original text is lost to
the backspace rewrap. -/
theorem C5_insert_backspace_counterexample :
    c5PreState.map (fun s => (s.text, s.curPosX, (s.bufLength : Int))) =
      some ([[['a', 'b', 'c', ' ']]], (3 : Int), (4 : Int)) ∧
    c5PostState.map (fun s => (s.text, s.curPosX)) =
      some ([[['a', 'b', 'c']]], (3 : Int)) ∧
    ([[['a', 'b', 'c']]] : List Line) ≠ [[['a', 'b', 'c', ' ']]] := by
  exact ⟨by decide, by decide, by decide⟩

/-- C6: in single-row mode (row cap 1) the Enter handler mutates
nothing and signals termination, and the session ends in the saved
state returning the serialization of the unchanged document. -/
theorem C6_single_row_commit (s : EditorState) (h1 : s.maxTextSize = 1)
    (h2 : s.cancelled = false) (h3 : s.aborted = false) :
    insertLineOrQuit s = some (Sig.stop, s) ∧
    runStep (Key.ch '\n') s =
      some (Outcome.finished (SessionResult.saved (serialize s.text))) := by
  have hl : lookupKey (Key.ch '\n') = some Act.actEnter := by rfl
  have hq : insertLineOrQuit s = some (Sig.stop, s) := by
    simp [insertLineOrQuit, h1]
  refine ⟨hq, ?_⟩
  simp [runStep, getKeyStep, hl, runAct, hq, exitResult, h2, h3]

/-- C7: in multi-row mode with a nonzero row cap already reached, the
Enter handler returns before touching anything: the whole state
(document, cursor, offsets) is returned unchanged and the loop
continues. -/
theorem C7_row_cap_noop (s : EditorState) (h1 : s.maxTextSize ≠ 1)
    (h0 : s.maxTextSize ≠ 0) (h2 : s.numRows = s.maxTextSize) :
    insertLineOrQuit s = some (Sig.cont, s) := by
  simp [insertLineOrQuit, h1, h2]

/-- C9: a key event absent from the dispatch table is routed to
insert_char (the KeyError is consumed, never surfaced), integer codes
among them leave the state untouched, and such an event can only keep
the session in the editing state, never terminate it. -/
theorem C9_unrecognized_key_fallthrough (k : Key) (s : EditorState)
    (h : lookupKey k = none) :
    getKeyStep k s = (insertChar k s).map (fun t => (Sig.cont, t)) ∧
    (∀ n, k = Key.code n → getKeyStep k s = some (Sig.cont, s)) ∧
    (∀ o, runStep k s = some o → ∃ s', o = Outcome.editing s') := by
  refine ⟨by simp [getKeyStep, h], ?_, ?_⟩
  · intro n hk
    subst hk
    simp [getKeyStep, h, insertChar]
  · intro o ho
    simp only [runStep, getKeyStep, h] at ho
    cases hi : insertChar k s with
    | none => rw [hi] at ho; cases ho
    | some t =>
      rw [hi] at ho
      cases hb : bufferSet t with
      | none => simp [hb] at ho
      | some u =>
        simp [hb] at ho
        first
        | exact ⟨u, ho⟩
        | exact ⟨u, ho.symm⟩

/-- C10: an integer keycode that misses the dispatch table falls
through to insert_char, which returns at its isinstance guard: the
state (document, cursor, offsets, space counter) is returned completely
unchanged and the loop continues. -/
theorem C10_int_keycode_insert_noop (n : Int) (s : EditorState)
    (h : lookupCode n = none) :
    insertChar (Key.code n) s = some s ∧
    getKeyStep (Key.code n) s = some (Sig.cont, s) := by
  refine ⟨rfl, ?_⟩
  simp [getKeyStep, lookupKey, h, insertChar]

/-!
## Witness states for the hypothesis-bearing theorems
-/

/-- A consistent single-row-mode state: one line, one row hi. -/
def c6s : EditorState :=
  { text := [[['h', 'i']]], curPosY := 0, curPosX := 0, yOffset := 0,
    xOffset := 0, winSizeY := 1, winSizeX := 10, maxTextSize := 1,
    pwMode := false, xScroll := true, spaceCounter := 0, maxCols := 2,
    numRows := 1, bufferIdxY := 0, bufferIdxX := 0,
    bufferList := [(0, 0, ['h', 'i'])], bufLength := 2,
    cancelled := false, aborted := false }

/-- A consistent two-row state at its row cap of 2. -/
def c7s : EditorState :=
  { text := [[['a', 'b']], [[' ']]], curPosY := 0, curPosX := 0, yOffset := 0,
    xOffset := 0, winSizeY := 5, winSizeX := 5, maxTextSize := 2,
    pwMode := false, xScroll := false, spaceCounter := 0, maxCols := 2,
    numRows := 2, bufferIdxY := 0, bufferIdxX := 0,
    bufferList := [(0, 0, ['a', 'b']), (1, 0, [' '])], bufLength := 2,
    cancelled := false, aborted := false }

theorem C6_single_row_commit_witness :
    insertLineOrQuit c6s = some (Sig.stop, c6s) ∧
    runStep (Key.ch '\n') c6s =
      some (Outcome.finished (SessionResult.saved (serialize c6s.text))) :=
  C6_single_row_commit c6s rfl rfl rfl

theorem C7_row_cap_noop_witness :
    insertLineOrQuit c7s = some (Sig.cont, c7s) :=
  C7_row_cap_noop c7s (by decide) (by decide) (by decide)

theorem C9_unrecognized_key_fallthrough_witness :
    getKeyStep (Key.code 999) c7s =
      (insertChar (Key.code 999) c7s).map (fun t => (Sig.cont, t)) :=
  (C9_unrecognized_key_fallthrough (Key.code 999) c7s (by decide)).1

theorem C10_int_keycode_insert_noop_witness :
    insertChar (Key.code 999) c6s = some c6s ∧
    getKeyStep (Key.code 999) c6s = some (Sig.cont, c6s) :=
  C10_int_keycode_insert_noop 999 c6s (by decide)

/-- A state and the result of rebuilding its buffer, witnessing the
amended C4 statement. -/
def c4w : EditorState :=
  { text := [[['a']]], curPosY := 0, curPosX := 0, yOffset := 0,
    xOffset := 0, winSizeY := 5, winSizeX := 5, maxTextSize := 0,
    pwMode := false, xScroll := false, spaceCounter := 0, maxCols := 1,
    numRows := 1, bufferIdxY := 0, bufferIdxX := 0,
    bufferList := [(0, 0, ['a'])], bufLength := 1,
    cancelled := false, aborted := false }

theorem C4_bufferindex_nonempty_amended_witness :
    c4w.bufferList ≠ [] :=
  C4_bufferindex_nonempty_amended c4w c4w (by decide)

/-!
## Wrap-engine lemmas

Single-line behaviour of the wrap: a text that fits in the width comes
back as one row, with at most a trailing whitespace chunk dropped.
-/

theorem chunksGo_flatten (l : Str) : ∀ (cur : Str) (b : Bool),
    (chunksGo cur b l).flatten = cur.reverse ++ l := by
  induction l with
  | nil => intro cur b; simp [chunksGo]
  | cons c cs ih =>
    intro cur b
    simp only [chunksGo]
    by_cases h : (isUniWs c = b)
    · rw [if_pos h, ih]
      simp
    · rw [if_neg h]
      simp [ih]

theorem chunksOf_flatten (s : Str) : (chunksOf s).flatten = s := by
  cases s with
  | nil => rfl
  | cons c cs => simp [chunksOf, chunksGo_flatten]

theorem sumLen_eq_flatten (l : List Str) : sumLen l = l.flatten.length := by
  induction l with
  | nil => rfl
  | cons x xs ih =>
    simp only [sumLen, List.map_cons, List.sum_cons, List.flatten_cons,
      List.length_append]
    simp only [sumLen] at ih
    omega

theorem greedyTake_all (w : Nat) (chunks : List Str) : ∀ (curLen : Nat),
    curLen + sumLen chunks ≤ w → greedyTake w curLen chunks = (chunks, []) := by
  induction chunks with
  | nil => intro curLen h; rfl
  | cons ch rest ih =>
    intro curLen h
    have hs : sumLen (ch :: rest) = ch.length + sumLen rest := by
      simp [sumLen]
    have h1 : curLen + ch.length ≤ w := by omega
    simp only [greedyTake, if_pos h1]
    rw [ih (curLen + ch.length) (by omega)]

/-- Every chunk produced by the splitter is nonempty and homogeneous:
all its characters agree on being whitespace. -/
theorem chunksGo_sound (l : Str) : ∀ (cur : Str) (b : Bool), cur ≠ [] →
    (∀ c ∈ cur, isUniWs c = b) →
    ∀ ch ∈ chunksGo cur b l, ch ≠ [] ∧ ∃ d : Bool, ∀ c ∈ ch, isUniWs c = d := by
  induction l with
  | nil =>
    intro cur b hne hhom ch hch
    simp [chunksGo] at hch
    subst hch
    refine ⟨by simpa using hne, b, ?_⟩
    intro c hc
    exact hhom c (by simpa using hc)
  | cons c cs ih =>
    intro cur b hne hhom ch hch
    simp only [chunksGo] at hch
    by_cases h : (isUniWs c = b)
    · rw [if_pos h] at hch
      refine ih (c :: cur) b (by simp) ?_ ch hch
      intro x hx
      cases hx with
      | head => exact h
      | tail _ hx => exact hhom x hx
    · rw [if_neg h] at hch
      cases hch with
      | head =>
        refine ⟨by simpa using hne, b, ?_⟩
        intro x hx
        exact hhom x (by simpa using hx)
      | tail _ hch =>
        exact ih [c] (isUniWs c) (by simp) (by simp) ch hch

theorem chunksOf_sound (s : Str) :
    ∀ ch ∈ chunksOf s, ch ≠ [] ∧ ∃ d : Bool, ∀ c ∈ ch, isUniWs c = d := by
  cases s with
  | nil => intro ch hch; simp [chunksOf] at hch
  | cons c cs =>
    intro ch hch
    exact chunksGo_sound cs [c] (isUniWs c) (by simp) (by simp) ch hch

theorem chunksOf_ne_nil (s : Str) (h : s ≠ []) : chunksOf s ≠ [] := by
  intro hc
  apply h
  have := chunksOf_flatten s
  rw [hc] at this
  simpa using this.symm

/-- str.expandtabs changes nothing without tabs. -/
theorem expandTabsGo_id (s : Str) : ∀ (col : Nat), (∀ c ∈ s, c ≠ '\t') →
    expandTabsGo col s = s := by
  induction s with
  | nil => intro col h; rfl
  | cons c cs ih =>
    intro col h
    have hc : c ≠ '\t' := h c (by simp)
    simp only [expandTabsGo, if_neg hc]
    by_cases hn : (c = '\n' ∨ c = '\r')
    · rw [if_pos hn, ih 0 (fun x hx => h x (by simp [hx]))]
    · rw [if_neg hn, ih (col + 1) (fun x hx => h x (by simp [hx]))]

/-- Whitespace munging changes nothing when the only whitespace
present is the plain space. -/
theorem munge_id (s : Str) (h : ∀ c ∈ s, isPyWs c = true → c = ' ') :
    munge s = s := by
  unfold munge
  have ht : ∀ c ∈ s, c ≠ '\t' := by
    intro c hc he
    have := h c hc (by rw [he]; rfl)
    rw [he] at this
    cases this
  rw [expandTabsGo_id s 0 ht]
  have : ∀ c ∈ s, (if isPyWs c then ' ' else c) = c := by
    intro c hc
    by_cases hw : isPyWs c
    · rw [if_pos hw, h c hc hw]
    · rw [if_neg hw]
  calc s.map (fun c => if isPyWs c then ' ' else c)
      = s.map id := List.map_congr_left (by simpa using this)
    _ = s := List.map_id s

theorem wrapGo_nil (w fuel : Nat) (hl : Bool) (acc : List Str) :
    wrapGo w fuel [] hl acc = acc.reverse := by
  cases fuel <;> rfl

theorem wrapGo_cons (w fuel : Nat) (hl : Bool) (acc chunks : List Str)
    (h : chunks ≠ []) :
    wrapGo w (fuel + 1) chunks hl acc =
      match (wrapStep w hl chunks).1 with
      | some l => wrapGo w fuel (wrapStep w hl chunks).2 true (l :: acc)
      | none => wrapGo w fuel (wrapStep w hl chunks).2 hl acc := by
  cases chunks with
  | nil => cases h rfl
  | cons c cs => rfl

/-- A last chunk of chars that are all spaces, sitting at the end of a
string whose second-to-last character is not a space, is the single
space. -/
theorem last_chunk_single_space (pre L row : Str)
    (hL : L ≠ []) (hall : ∀ c ∈ L, (c == ' ') = true)
    (heq : pre ++ L = row ++ [' ']) (hrow : row.getLast? ≠ some ' ') :
    L = [' '] := by
  rcases List.eq_nil_or_concat L with h | ⟨L2, x, hx⟩
  · exact absurd h hL
  · subst hx
    have hx' : x = ' ' := by
      have := hall x (by simp)
      simpa using this
    subst hx'
    have heq2 : (pre ++ L2) ++ [' '] = row ++ [' '] := by
      simpa [List.append_assoc] using heq
    have heq3 : pre ++ L2 = row := by
      exact List.append_cancel_right heq2
    cases hL2 : L2 with
    | nil => rfl
    | cons y ys =>
      exfalso
      apply hrow
      rw [← heq3, hL2]
      have hne : (y :: ys : Str) ≠ [] := by simp
      rw [List.getLast?_append_of_ne_nil pre hne]
      rw [List.getLast?_eq_getLast_of_ne_nil hne]
      have hmem : (y :: ys).getLast hne ∈ L2.concat ' ' := by
        rw [hL2, List.concat_eq_append]
        exact List.mem_append_left _ (List.getLast_mem hne)
      have h2 := hall _ hmem
      simp only [beq_iff_eq] at h2
      rw [h2]

/-- Every ASCII whitespace character is Python whitespace. -/
theorem isUniWs_of_isPyWs (c : Char) (h : isPyWs c = true) :
    isUniWs c = true := by
  simp [isUniWs, h]

theorem isPyWs_false_of_not_uni (c : Char) (h : isUniWs c = false) :
    isPyWs c = false := by
  by_contra hc
  rw [Bool.not_eq_false] at hc
  rw [isUniWs_of_isPyWs c hc] at h
  cases h

/-- Every line-boundary character is Python whitespace. -/
theorem isUniWs_of_isLineBreak (c : Char) (h : isLineBreak c = true) :
    isUniWs c = true := by
  have hmem : c ∈ ['\n', '\r', '\x0b', '\x0c', '\x1c', '\x1d', '\x1e',
      '\x85', '\u2028', '\u2029'] := by
    simp only [isLineBreak, Bool.or_eq_true, beq_iff_eq] at h
    simp only [List.mem_cons, List.not_mem_nil, or_false]
    tauto
  fin_cases hmem <;> decide

theorem isLineBreak_false_of_not_uni (c : Char) (h : isUniWs c = false) :
    isLineBreak c = false := by
  by_contra hc
  rw [Bool.not_eq_false] at hc
  rw [isUniWs_of_isLineBreak c hc] at h
  cases h

/-- Decompose the chunks of a nonempty string around the last chunk. -/
theorem chunksOf_last_decomp (s : Str) (hne : s ≠ []) :
    ∃ I L, chunksOf s = I ++ [L] ∧ I.flatten ++ L = s ∧ L ≠ [] ∧
      ∃ d : Bool, ∀ c ∈ L, isUniWs c = d := by
  have hchne := chunksOf_ne_nil s hne
  obtain ⟨h1, d, h2⟩ := chunksOf_sound s _ (List.getLast_mem hchne)
  refine ⟨(chunksOf s).dropLast, (chunksOf s).getLast hchne,
    (List.dropLast_append_getLast hchne).symm, ?_, h1, d, h2⟩
  have hfl : ((chunksOf s).dropLast ++ [(chunksOf s).getLast hchne]).flatten = s := by
    rw [List.dropLast_append_getLast hchne, chunksOf_flatten]
  simpa [List.flatten_append] using hfl

/-- One outer wrap iteration on a chunk list that fits entirely within
the width (first iteration: no line yet, so no leading-whitespace
drop). -/
theorem wrapStep_fits (w : Nat) (ch : List Str) (hne : ch ≠ [])
    (hfit : sumLen ch ≤ w) :
    wrapStep w false ch =
      (if dropTrailWs ch = [] then none else some (dropTrailWs ch).flatten,
       []) := by
  cases ch with
  | nil => cases hne rfl
  | cons c rest =>
    have hg : greedyTake w 0 (c :: rest) = (c :: rest, []) :=
      greedyTake_all w (c :: rest) 0 (by omega)
    simp only [wrapStep, Bool.false_eq_true, false_and, if_false, hg]

/-- The wrap of a string that fits within the width: one row
consisting of all chunks with a trailing whitespace chunk dropped (or
no row at all when nothing remains). -/
theorem wrapL_fits (w : Nat) (s : Str) (hne : s ≠ []) (hlen : s.length ≤ w)
    (hmunge : munge s = s) :
    wrapL w s = if dropTrailWs (chunksOf s) = [] then []
                else [(dropTrailWs (chunksOf s)).flatten] := by
  unfold wrapL
  rw [hmunge]
  have hchne := chunksOf_ne_nil s hne
  have hsum : sumLen (chunksOf s) = s.length := by
    rw [sumLen_eq_flatten, chunksOf_flatten]
  have hstep := wrapStep_fits w (chunksOf s) hchne (by omega)
  rw [wrapGo_cons w _ false [] _ hchne, hstep]
  by_cases hd : dropTrailWs (chunksOf s) = []
  · simp [hd, wrapGo_nil]
  · simp [hd, wrapGo_nil]

/-- A nonempty string that fits in the width and does not end in a
space wraps to exactly itself. -/
theorem wrapL_oneline (w : Nat) (s : Str) (hne : s ≠ []) (hlen : s.length ≤ w)
    (hlast : s.getLast? ≠ some ' ')
    (hstab : ∀ c ∈ s, isUniWs c = true → c = ' ') :
    wrapL w s = [s] := by
  have hstabP : ∀ c ∈ s, isPyWs c = true → c = ' ' :=
    fun c hc hp => hstab c hc (isUniWs_of_isPyWs c hp)
  obtain ⟨I, L, hch, hflat, hLne, d, hd⟩ := chunksOf_last_decomp s hne
  have hLlast : L.getLast? = s.getLast? := by
    rw [← hflat, List.getLast?_append_of_ne_nil I.flatten hLne]
  have hLsub : ∀ c ∈ L, c ∈ s := by
    intro c hc
    rw [← hflat]
    exact List.mem_append_right _ hc
  have hdf : d = false := by
    by_contra hdt
    have hdt' : d = true := by cases d <;> simp_all
    apply hlast
    rw [← hLlast, List.getLast?_eq_getLast_of_ne_nil hLne]
    have hLw := hd (L.getLast hLne) (List.getLast_mem hLne)
    rw [hdt'] at hLw
    rw [hstab (L.getLast hLne) (hLsub _ (List.getLast_mem hLne)) hLw]
  have hws : isWsChunk L = false := by
    cases hLcase : L with
    | nil => cases hLne hLcase
    | cons x xs =>
      have hx : isUniWs x = d := hd x (by rw [hLcase]; simp)
      rw [hdf] at hx
      simp [isWsChunk, hx]
  have hdtws : dropTrailWs (chunksOf s) = chunksOf s := by
    rw [hch]
    unfold dropTrailWs
    rw [List.getLast?_append_cons]
    simp [hws]
  rw [wrapL_fits w s hne hlen (munge_id s hstabP), hdtws, hch]
  have hne2 : I ++ [L] ≠ [] := by simp
  rw [if_neg hne2]
  have : (I ++ [L]).flatten = s := by
    rw [← hch, chunksOf_flatten]
  rw [this]

/-- A nonempty string that, together with one extra trailing space,
fits in the width wraps to itself with the trailing space dropped. -/
theorem wrapL_trailing (w : Nat) (row : Str) (hne : row ≠ [])
    (hlen : row.length + 1 ≤ w) (hlast : row.getLast? ≠ some ' ')
    (hstab : ∀ c ∈ row, isUniWs c = true → c = ' ') :
    wrapL w (row ++ [' ']) = [row] := by
  have hsne : (row ++ [' '] : Str) ≠ [] := by simp
  have hstab2 : ∀ c ∈ row ++ [' '], isUniWs c = true → c = ' ' := by
    intro c hc hw
    rcases List.mem_append.mp hc with h | h
    · exact hstab c h hw
    · simpa using h
  have hstab2P : ∀ c ∈ row ++ [' '], isPyWs c = true → c = ' ' :=
    fun c hc hp => hstab2 c hc (isUniWs_of_isPyWs c hp)
  obtain ⟨I, L, hch, hflat, hLne, d, hd⟩ := chunksOf_last_decomp (row ++ [' ']) hsne
  have hLlast : L.getLast? = (row ++ [' '] : Str).getLast? := by
    rw [← hflat, List.getLast?_append_of_ne_nil I.flatten hLne]
  have hslast : (row ++ [' '] : Str).getLast? = some ' ' := by
    rw [List.getLast?_append_of_ne_nil row (by simp)]
    rfl
  have hLsub : ∀ c ∈ L, c ∈ row ++ [' '] := by
    intro c hc
    rw [← hflat]
    exact List.mem_append_right _ hc
  have hdt : d = true := by
    have h1 : L.getLast? = some ' ' := by rw [hLlast, hslast]
    rw [List.getLast?_eq_getLast_of_ne_nil hLne] at h1
    have h2 := hd (L.getLast hLne) (List.getLast_mem hLne)
    have h3 : L.getLast hLne = ' ' := Option.some_inj.mp h1
    rw [h3] at h2
    rw [← h2]
    decide
  have hallL : ∀ c ∈ L, (c == ' ') = true := by
    intro c hc
    have hcw : isUniWs c = true := by rw [hd c hc, hdt]
    have := hstab2 c (hLsub c hc) hcw
    simp [this]
  have hLsp : L = [' '] :=
    last_chunk_single_space I.flatten L row hLne hallL hflat hlast
  have hws : isWsChunk L = true := by
    rw [hLsp]
    rfl
  have hIflat : I.flatten = row := by
    have : I.flatten ++ L = row ++ [' '] := hflat
    rw [hLsp] at this
    exact List.append_cancel_right this
  have hIne : I ≠ [] := by
    intro hI
    rw [hI] at hIflat
    exact hne (by simpa using hIflat.symm)
  have hdtws : dropTrailWs (chunksOf (row ++ [' '])) = I := by
    rw [hch]
    unfold dropTrailWs
    rw [List.getLast?_append_cons]
    simp [hws]
  rw [wrapL_fits w (row ++ [' ']) hsne (by simpa using hlen)
    (munge_id (row ++ [' ']) hstab2P), hdtws]
  rw [if_neg ?_, hIflat]
  intro hI
  rw [hI] at hIflat
  exact hne (by simpa using hIflat.symm)

/-!
## BufferIndex structure lemmas

The flattened row list addresses the first row of a logical line at
the index equal to the total number of rows of the preceding lines.
-/

theorem entries_get_sum (r0 : Str) (rest : Line) (post : List Line) :
    ∀ (pre : List Line) (k : Nat),
    (((pre ++ (r0 :: rest) :: post).enumFrom k).flatMap
      (fun p => p.2.enum.map (fun q => (p.1, q.1, q.2)))).get?
        ((pre.map List.length).sum) = some (k + pre.length, 0, r0) := by
  intro pre
  induction pre with
  | nil =>
    intro k
    simp [List.enumFrom, List.flatMap_cons, List.enum]
  | cons L pre' ih =>
    intro k
    have hstep :
        (((L :: pre') ++ (r0 :: rest) :: post).enumFrom k).flatMap
          (fun p => p.2.enum.map (fun q => (p.1, q.1, q.2))) =
        L.enum.map (fun q => (k, q.1, q.2)) ++
          ((pre' ++ (r0 :: rest) :: post).enumFrom (k + 1)).flatMap
            (fun p => p.2.enum.map (fun q => (p.1, q.1, q.2))) := by
      rfl
    rw [hstep]
    have hlen : (L.enum.map (fun q : Nat × Str => (k, q.1, q.2))).length = L.length := by
      simp
    have hsum : (((L :: pre').map List.length).sum) =
        L.length + ((pre'.map List.length).sum) := by
      simp
    rw [hsum, List.get?_append_right (by omega)]
    have harith : L.length + (pre'.map List.length).sum -
        (L.enum.map (fun q : Nat × Str => (k, q.1, q.2))).length =
        (pre'.map List.length).sum := by
      rw [hlen]; omega
    rw [harith, ih (k + 1)]
    have : k + 1 + pre'.length = k + (L :: pre').length := by simp; omega
    rw [this]

theorem buildBufferList_middle (pre : List Line) (r0 : Str) (rest : Line)
    (post : List Line) :
    pyGet (buildBufferList (pre ++ (r0 :: rest) :: post))
      (((pre.map List.length).sum : Nat) : Int) = some (pre.length, 0, r0) := by
  have hg := entries_get_sum r0 rest post pre 0
  unfold buildBufferList
  have henum : (pre ++ (r0 :: rest) :: post).enum =
      (pre ++ (r0 :: rest) :: post).enumFrom 0 := rfl
  rw [henum]
  have hne : ((pre ++ (r0 :: rest) :: post).enumFrom 0).flatMap
      (fun p => p.2.enum.map (fun q => (p.1, q.1, q.2))) ≠ [] := by
    intro h
    rw [h] at hg
    simp at hg
  rw [if_neg hne]
  have h0 : (0 : Int) ≤ ((pre.map List.length).sum : Nat) := by positivity
  simp only [pyGet, if_pos h0, Int.toNat_natCast]
  simpa using hg

/-!
## Python list helpers around a distinguished middle element
-/

theorem get?_append_middle {α : Type} (pre : List α) (a : α) (post : List α) :
    (pre ++ a :: post).get? pre.length = some a := by
  rw [List.get?_append_right (le_refl pre.length)]
  simp

theorem set_append_middle {α : Type} (pre : List α) (a x : α) (post : List α) :
    (pre ++ a :: post).set pre.length x = pre ++ x :: post := by
  induction pre with
  | nil => rfl
  | cons h t ih => simp [List.set, ih]

theorem pySet_append_middle {α : Type} (pre : List α) (a x : α) (post : List α) :
    pySet (pre ++ a :: post) pre.length x = some (pre ++ x :: post) := by
  unfold pySet
  rw [if_pos (by simp)]
  rw [set_append_middle]

theorem eraseIdx_append_middle {α : Type} (pre : List α) (a : α) (post : List α) :
    (pre ++ a :: post).eraseIdx pre.length = pre ++ post := by
  induction pre with
  | nil => rfl
  | cons h t ih => simp [List.eraseIdx, ih]

theorem eraseIdx_append_middle' {α : Type} (n : Nat) (pre : List α) (a : α)
    (post : List α) (h : n = pre.length) :
    (pre ++ a :: post).eraseIdx n = pre ++ post := by
  subst h
  exact eraseIdx_append_middle pre a post

theorem pyGet_natCast {α : Type} (l : List α) (n : Nat) :
    pyGet l (n : Int) = l.get? n := by
  simp [pyGet]

theorem pyInsert_toNat {α : Type} (l : List α) (i : Int) (x : α)
    (h0 : 0 ≤ i) (hi : i.toNat ≤ l.length) :
    pyInsert l i x = l.take i.toNat ++ x :: l.drop i.toNat := by
  simp [pyInsert, h0, min_eq_left hi]

theorem pyDel_toNat {α : Type} (l : List α) (i : Int)
    (h0 : 0 ≤ i) (hi : i.toNat < l.length) :
    pyDel l i = some (l.eraseIdx i.toNat) := by
  simp [pyDel, h0, hi]

theorem pyTake_toNat (s : Str) (i : Int) (h0 : 0 ≤ i) :
    pyTake s i = s.take i.toNat := by
  simp [pyTake, h0]

/-- Python rstrip is the identity on a string whose last character is
not whitespace. -/
theorem rstripWs_eq_self (s : Str)
    (h : ∀ y, s.getLast? = some y → isUniWs y = false) : rstripWs s = s := by
  unfold rstripWs
  cases hr : s.reverse with
  | nil =>
    have : s = [] := by simpa using congrArg List.reverse hr
    simp [this]
  | cons y t =>
    have hy : s.getLast? = some y := by
      rw [← List.head?_reverse, hr]
      rfl
    have := h y hy
    rw [List.dropWhile_cons_of_neg (by simp [this])]
    rw [← hr, List.reverse_reverse]

theorem joinSp_singleton (s : Str) : joinSp [s] = s := by
  simp [joinSp, List.intercalate]

/-- get_cur_word reads only buffer_idx_x from the state. -/
theorem getCurWord_eq_of_idx {a b : EditorState} (t : Str) (f : Bool)
    (h : a.bufferIdxX = b.bufferIdxX) :
    getCurWord a t f = getCurWord b t f := by
  simp [getCurWord, h]

/-- The word-wrap jump is the identity when the word did not change. -/
theorem wordWrapJump_self (cw : Str) (s : EditorState) :
    wordWrapJump cw cw s = some s := by
  simp [wordWrapJump]

/-- buffer_set on a state whose cursor addresses the first row of a
logical line: it succeeds and only the derived fields change. -/
theorem bufferSet_middle (s : EditorState) (pre : List Line) (r0 : Str)
    (rest : Line) (post : List Line)
    (ht : s.text = pre ++ (r0 :: rest) :: post)
    (hB : s.curPosY + s.yOffset = (((pre.map List.length).sum : Nat) : Int)) :
    ∃ t, bufferSet s = some t ∧
      t.text = s.text ∧ t.curPosY = s.curPosY ∧ t.curPosX = s.curPosX ∧
      t.yOffset = s.yOffset ∧ t.xOffset = s.xOffset ∧
      t.winSizeY = s.winSizeY ∧ t.winSizeX = s.winSizeX ∧
      t.maxTextSize = s.maxTextSize ∧ t.pwMode = s.pwMode ∧
      t.xScroll = s.xScroll ∧ t.spaceCounter = s.spaceCounter ∧
      t.bufferIdxY = (((pre.map List.length).sum : Nat) : Int) ∧
      t.bufferIdxX = s.curPosX + s.xOffset ∧
      t.bufferList = buildBufferList s.text ∧
      t.bufLength = r0.length ∧
      t.cancelled = s.cancelled ∧ t.aborted = s.aborted := by
  have hp : pyGet (buildBufferList s.text) (s.curPosY + s.yOffset) =
      some (pre.length, 0, r0) := by
    rw [ht, hB]
    exact buildBufferList_middle pre r0 rest post
  refine ⟨{ s with
      maxCols := (((if (s.text.flatMap (fun line => line.map List.length)) = []
        then [s.winSizeX.toNat]
        else (s.text.flatMap (fun line => line.map List.length))).foldl
          max 0 : Nat) : Int),
      numRows := (s.text.map List.length).sum,
      bufferIdxY := s.curPosY + s.yOffset,
      bufferList := buildBufferList s.text,
      bufLength := r0.length,
      bufferIdxX := s.curPosX + s.xOffset },
    ?_, ?_, ?_, ?_, ?_, ?_, ?_, ?_, ?_, ?_, ?_, ?_, ?_, ?_, ?_, ?_, ?_, ?_⟩
  · simp only [bufferSet, hp]
  all_goals simp [hB]

set_option maxHeartbeats 2000000

/-- C5 amended: insert-then-backspace is an inverse on document text
and cursor position for states whose addressed logical line is a
single wrapped row with a consistent buffer index, where the row is
nonempty, does not end in a space, contains no Python whitespace
(the str.isspace set) other than the plain space, still fits the wrap
width with one extra character, and the cursor sits strictly inside
the row; the inserted character may be any character that is not
Python whitespace, or the plain space. -/
theorem C5_insert_backspace_amended
    (s : EditorState) (pre post : List Line) (row : Str) (c : Char)
    (ht : s.text = pre ++ [row] :: post)
    (hbl : s.bufferList = buildBufferList s.text)
    (hby : s.bufferIdxY = (((pre.map List.length).sum : Nat) : Int))
    (hyy : s.curPosY + s.yOffset = s.bufferIdxY)
    (hxo : s.xOffset = 0)
    (hbx : s.bufferIdxX = s.curPosX)
    (hx0 : 0 < s.curPosX) (hx1 : s.curPosX < (row.length : Int))
    (hrlast : row.getLast? ≠ some ' ')
    (hrstab : ∀ d ∈ row, isUniWs d = true → d = ' ')
    (hcstab : isUniWs c = true → c = ' ')
    (hwlen : (row.length : Int) + 1 ≤ s.winSizeX - 1) :
    ∃ s1 s2, (insertChar (Key.ch c) s).bind bufferSet = some s1 ∧
      backspace s1 = some s2 ∧ s2.text = s.text ∧
      s2.curPosX = s.curPosX ∧ s2.curPosY = s.curPosY := by
  -- groundwork
  have hxnn : (0 : Int) ≤ s.curPosX := le_of_lt hx0
  have hrlenpos : 0 < row.length := by
    by_contra h
    have h0 : row.length = 0 := by omega
    rw [h0] at hx1
    omega
  have hrne : row ≠ [] := by
    intro h
    rw [h] at hrlenpos
    simp at hrlenpos
  have hnncast : ((s.curPosX.toNat : Int)) = s.curPosX :=
    Int.toNat_of_nonneg hxnn
  have hnnlt : s.curPosX.toNat < row.length := by omega
  have hW1 : row.length + 1 ≤ (s.winSizeX - 1).toNat := by omega
  have hglast : ∀ y, row.getLast? = some y → isUniWs y = false := by
    intro y hy
    by_contra hw
    have hymem : y ∈ row := by
      rw [List.getLast?_eq_getLast_of_ne_nil hrne] at hy
      rw [← Option.some_inj.mp hy]
      exact List.getLast_mem hrne
    have : y = ' ' := hrstab y hymem (by simpa using hw)
    rw [this] at hy
    exact hrlast hy
  -- the inserted row
  have hdropne : row.drop s.curPosX.toNat ≠ [] := by
    apply List.ne_nil_of_length_pos
    simp [List.length_drop]
    omega
  have hnrlen :
      (row.take s.curPosX.toNat ++ c :: row.drop s.curPosX.toNat).length =
        row.length + 1 := by
    simp [List.length_take, List.length_drop]
    omega
  have hnrne : (row.take s.curPosX.toNat ++ c :: row.drop s.curPosX.toNat) ≠ [] := by
    simp
  have hnrlast :
      (row.take s.curPosX.toNat ++ c :: row.drop s.curPosX.toNat).getLast? =
        row.getLast? := by
    rw [List.getLast?_append_cons]
    have h1 : (c :: row.drop s.curPosX.toNat : Str) = [c] ++ row.drop s.curPosX.toNat := rfl
    rw [h1, List.getLast?_append_of_ne_nil [c] hdropne]
    conv_rhs => rw [← List.take_append_drop s.curPosX.toNat row]
    rw [List.getLast?_append_of_ne_nil _ hdropne]
  have hnrstab :
      ∀ d ∈ row.take s.curPosX.toNat ++ c :: row.drop s.curPosX.toNat,
        isUniWs d = true → d = ' ' := by
    intro d hd
    rcases List.mem_append.mp hd with h | h
    · exact hrstab d (List.mem_of_mem_take h)
    · rcases h with _ | h
      · exact hcstab
      · next h => exact hrstab d (List.mem_of_mem_drop h)
  -- abbreviate the inserted row
  set nr : Str := row.take s.curPosX.toNat ++ c :: row.drop s.curPosX.toNat
    with hnrd
  -- step facts for the insertion chain
  have h1 : pyGet s.bufferList s.bufferIdxY = some (pre.length, 0, row) := by
    rw [hbl, hby, ht]
    exact buildBufferList_middle pre row [] post
  have h2 : pyInsert row s.bufferIdxX c = nr := by
    rw [hbx, hnrd]
    exact pyInsert_toNat row s.curPosX c hxnn (by omega)
  have h3 : s.text[pre.length]? = some [row] := by
    rw [← List.get?_eq_getElem?, ht]
    exact get?_append_middle pre [row] post
  have h4 : pySet ([row] : Line) 0 nr = some [nr] := by
    simp [pySet]
  have h5 : pySet s.text pre.length [nr] = some (pre ++ [nr] :: post) := by
    rw [ht]
    exact pySet_append_middle pre [row] _ post
  have h6 : rstripWs nr = nr :=
    rstripWs_eq_self _ (by
      intro y hy
      rw [hnrlast] at hy
      exact hglast y hy)
  have h7 : (pre ++ [nr] :: post)[pre.length]? = some [nr] := by
    rw [← List.get?_eq_getElem?]
    exact get?_append_middle pre _ post
  have h8 : joinSp [nr] = nr := joinSp_singleton _
  have hWtn : (s.winSizeX - 1).toNat = s.winSizeX.toNat - 1 := by omega
  have h9 : wrapL (s.winSizeX.toNat - 1) nr = [nr] := by
    rw [← hWtn]
    exact wrapL_oneline _ _ hnrne (by rw [hnrlen]; exact hW1)
      (by rw [hnrlast]; exact hrlast) hnrstab
  have h10 : pySet (pre ++ [nr] :: post) pre.length [nr] =
      some (pre ++ [nr] :: post) :=
    pySet_append_middle pre _ _ post
  have h11 : pySet ([nr] : Line) 0 (nr ++ spaces 1) = some [nr ++ spaces 1] := by
    simp [pySet]
  have h12 : pySet (pre ++ [nr] :: post) pre.length [nr ++ spaces 1] =
      some (pre ++ [nr ++ spaces 1] :: post) :=
    pySet_append_middle pre _ _ post
  obtain ⟨t4, hbs4, a_text, a_cy, a_cx, a_yo, a_xo, a_wy, a_wx, a_mx, a_pw,
      a_xs, a_sc, a_by, a_bx, a_bl, a_bll, a_cc, a_ab⟩ :=
    bufferSet_middle
      { s with text := pre ++ [nr ++ spaces 1] :: post, spaceCounter := 1 }
      pre (nr ++ spaces 1) [] post (by simp)
      (by show s.curPosY + s.yOffset = _; rw [hyy, hby])
  have b_text : t4.text = pre ++ [nr ++ spaces 1] :: post := by
    simpa using a_text
  have b_cy : t4.curPosY = s.curPosY := by simpa using a_cy
  have b_cx : t4.curPosX = s.curPosX := by simpa using a_cx
  have b_yo : t4.yOffset = s.yOffset := by simpa using a_yo
  have b_xo : t4.xOffset = s.xOffset := by simpa using a_xo
  have b_wx : t4.winSizeX = s.winSizeX := by simpa using a_wx
  have b_bx : t4.bufferIdxX = s.curPosX := by
    have h := a_bx
    simp at h
    rw [h, hxo, add_zero]
  have b_bl : t4.bufferList = buildBufferList (pre ++ [nr ++ spaces 1] :: post) := by
    simpa using a_bl
  have hsplen : (nr ++ spaces 1).length = row.length + 2 := by
    simp only [List.length_append, hnrlen]
    simp [spaces]
  have hright : right t4 = some { t4 with curPosX := t4.curPosX + 1 } := by
    unfold right
    rw [if_pos (by rw [b_cx, a_bll, hsplen]; omega)]
  have hins : insertChar (Key.ch c) s =
      some { t4 with curPosX := t4.curPosX + 1 } := by
    simp only [insertChar]
    simp [insertCharCh, h1, h2, h3, h4, h5, h6, h7, h8, h9, h10, h11, h12,
      hbs4, hright, wordWrapJump_self, getCurWord]
  -- the loop buffer_set after the insertion
  obtain ⟨t6, hbs6, c_text, c_cy, c_cx, c_yo, c_xo, c_wy, c_wx, c_mx, c_pw,
      c_xs, c_sc, c_by, c_bx, c_bl, c_bll, c_cc, c_ab⟩ :=
    bufferSet_middle { t4 with curPosX := t4.curPosX + 1 } pre
      (nr ++ spaces 1) [] post (by simpa using b_text)
      (by show t4.curPosY + t4.yOffset = _; rw [b_cy, b_yo, hyy, hby])
  have d_text : t6.text = pre ++ [nr ++ spaces 1] :: post := by
    simpa [b_text] using c_text
  have d_cy : t6.curPosY = s.curPosY := by simpa [b_cy] using c_cy
  have d_cx : t6.curPosX = s.curPosX + 1 := by simpa [b_cx] using c_cx
  have d_yo : t6.yOffset = s.yOffset := by simpa [b_yo] using c_yo
  have d_wx : t6.winSizeX = s.winSizeX := by simpa [b_wx] using c_wx
  have d_by : t6.bufferIdxY = (((pre.map List.length).sum : Nat) : Int) := c_by
  have d_bx : t6.bufferIdxX = s.curPosX + 1 := by
    have h := c_bx
    simp [b_cx, b_xo, hxo] at h
    exact h
  have d_bl : t6.bufferList = buildBufferList (pre ++ [nr ++ spaces 1] :: post) := by
    have h := c_bl
    simp [b_text] at h
    exact h
  have d_bll : t6.bufLength = (nr ++ spaces 1).length := c_bll
  -- backspace step facts
  have k1 : pyGet t6.bufferList t6.bufferIdxY =
      some (pre.length, 0, nr ++ spaces 1) := by
    rw [d_bl, d_by]
    exact buildBufferList_middle pre _ [] post
  have k2 : t6.curPosX > 0 := by rw [d_cx]; omega
  have hIdx : t6.bufferIdxX - 1 = s.curPosX := by rw [d_bx]; ring
  have htklen : (row.take s.curPosX.toNat).length = s.curPosX.toNat := by
    simp [List.length_take]
    omega
  have k3 : pyDel (nr ++ spaces 1) (t6.bufferIdxX - 1) =
      some (row ++ spaces 1) := by
    rw [hIdx, pyDel_toNat _ _ hxnn (by rw [hsplen]; omega)]
    congr 1
    rw [hnrd, List.append_assoc, List.cons_append,
      eraseIdx_append_middle' s.curPosX.toNat _ _ _ htklen.symm,
      ← List.append_assoc, List.take_append_drop]
  have k4 : t6.text[pre.length]? = some [nr ++ spaces 1] := by
    rw [← List.get?_eq_getElem?, d_text]
    exact get?_append_middle pre _ post
  have k5 : pySet ([nr ++ spaces 1] : Line) 0 (row ++ spaces 1) =
      some [row ++ spaces 1] := by
    simp [pySet]
  have k6 : pySet t6.text pre.length [row ++ spaces 1] =
      some (pre ++ [row ++ spaces 1] :: post) := by
    rw [d_text]
    exact pySet_append_middle pre _ _ post
  have hleft : left { t6 with text := pre ++ [row ++ spaces 1] :: post } =
      some { t6 with
        text := pre ++ [row ++ spaces 1] :: post,
        curPosX := t6.curPosX - 1 } := by
    unfold left
    rw [if_pos (by simpa using k2)]
  -- backspaceTail facts
  have m1 : (pre ++ [row ++ spaces 1] :: post)[pre.length]? =
      some [row ++ spaces 1] := by
    rw [← List.get?_eq_getElem?]
    exact get?_append_middle pre _ post
  have m2 : joinSp [row ++ spaces 1] = row ++ spaces 1 := joinSp_singleton _
  have hsp1 : spaces 1 = [' '] := rfl
  have m3 : wrapL (t6.winSizeX.toNat - 1) (row ++ spaces 1) = [row] := by
    rw [d_wx, hsp1, ← hWtn]
    exact wrapL_trailing _ row hrne hW1 hrlast hrstab
  have m4 : pySet (pre ++ [row ++ spaces 1] :: post) pre.length [row] =
      some (pre ++ [row] :: post) :=
    pySet_append_middle pre _ _ post
  have m5 : pyTake (row ++ spaces 1) t6.bufferIdxX =
      pyTake row t6.bufferIdxX := by
    rw [d_bx, pyTake_toNat _ _ (by omega), pyTake_toNat _ _ (by omega)]
    exact List.take_append_of_le_length (by omega)
  obtain ⟨t8, hbs8, e_text, e_cy, e_cx, e_yo, e_xo, e_wy, e_wx, e_mx, e_pw,
      e_xs, e_sc, e_by, e_bx, e_bl, e_bll, e_cc, e_ab⟩ :=
    bufferSet_middle
      { t6 with
        text := pre ++ [row] :: post,
        curPosX := t6.curPosX - 1 }
      pre row [] post (by simp)
      (by show t6.curPosY + t6.yOffset = _; rw [d_cy, d_yo, hyy, hby])
  have hbk : backspace t6 = some t8 := by
    simp [backspace, backspaceTail, k1, k2, k3, k4, k5, k6, hleft, m1, m2,
      m3, m4, m5, hbs8, wordWrapJump_self, getCurWord]
  refine ⟨t6, t8, ?_, hbk, ?_, ?_, ?_⟩
  · rw [hins]
    simpa using hbs6
  · have h := e_text
    simp at h
    rw [h, ht]
  · have h := e_cx
    simp at h
    rw [h, d_cx]
    ring
  · have h := e_cy
    simp at h
    rw [h, d_cy]

set_option maxHeartbeats 400000

/-- A consistent single-row, single-line state: row ab, cursor at
column 1, width-10 window. -/
def c5w : EditorState :=
  { text := [[['a', 'b']]], curPosY := 0, curPosX := 1, yOffset := 0,
    xOffset := 0, winSizeY := 5, winSizeX := 10, maxTextSize := 0,
    pwMode := false, xScroll := false, spaceCounter := 0, maxCols := 2,
    numRows := 1, bufferIdxY := 0, bufferIdxX := 1,
    bufferList := [(0, 0, ['a', 'b'])], bufLength := 2,
    cancelled := false, aborted := false }

theorem C5_insert_backspace_amended_witness :
    ∃ s1 s2, (insertChar (Key.ch 'X') c5w).bind bufferSet = some s1 ∧
      backspace s1 = some s2 ∧ s2.text = c5w.text ∧
      s2.curPosX = c5w.curPosX ∧ s2.curPosY = c5w.curPosY :=
  C5_insert_backspace_amended c5w [] [] ['a', 'b'] 'X' (by decide) (by decide)
    (by decide) (by decide) (by decide) (by decide) (by decide) (by decide)
    (by decide) (by decide) (by decide) (by decide)

/-!
## Greedy wrap on single-spaced word lines (towards the round-trip)
-/

/-- The chunk sequence of a single-spaced word line: the words
interleaved with single-space chunks. -/
def chunkSeq : List Str → List Str
  | [] => []
  | [w] => [w]
  | w :: ws => w :: [' '] :: chunkSeq ws

/-- How many words the greedy line-filling loop packs into the current
line, starting from an already-consumed length. -/
def packWords (w : Nat) : Nat → List Str → Nat
  | _, [] => 0
  | curLen, x :: ws =>
    if curLen + x.length ≤ w then 1 + packWords w (curLen + x.length + 1) ws
    else 0

theorem chunkSeq_flatten (ws : List Str) :
    (chunkSeq ws).flatten = List.intercalate [' '] ws := by
  induction ws with
  | nil => rfl
  | cons w ws ih =>
    cases ws with
    | nil => simp [chunkSeq, List.intercalate]
    | cons v vs =>
      have hstep : List.intercalate [' '] (w :: v :: vs) =
          w ++ ' ' :: List.intercalate [' '] (v :: vs) := by
        simp [List.intercalate, List.intersperse]
      rw [hstep, show chunkSeq (w :: v :: vs) = w :: [' '] :: chunkSeq (v :: vs) from rfl]
      simp only [List.flatten_cons, ih]
      simp

theorem chunkSeq_ne_nil (ws : List Str) (h : ws ≠ []) : chunkSeq ws ≠ [] := by
  cases ws with
  | nil => cases h rfl
  | cons w ws => cases ws <;> simp [chunkSeq]

theorem chunkSeq_length_ge (ws : List Str) : ws.length ≤ (chunkSeq ws).length := by
  induction ws with
  | nil => simp [chunkSeq]
  | cons w ws ih =>
    cases ws with
    | nil => simp [chunkSeq]
    | cons v vs =>
      rw [show chunkSeq (w :: v :: vs) = w :: [' '] :: chunkSeq (v :: vs) from rfl]
      simp only [List.length_cons] at ih ⊢
      omega

theorem intercalate_cons_of_ne_nil (w : Str) (ws : List Str) (h : ws ≠ []) :
    List.intercalate [' '] (w :: ws) = w ++ ' ' :: List.intercalate [' '] ws := by
  cases ws with
  | nil => cases h rfl
  | cons v vs => simp [List.intercalate, List.intersperse]

theorem intercalate_words_ne_nil (ws : List Str) (h : ws ≠ [])
    (hw : ∀ w ∈ ws, w ≠ []) : List.intercalate [' '] ws ≠ [] := by
  cases ws with
  | nil => cases h rfl
  | cons w vs =>
    cases vs with
    | nil =>
      simpa [List.intercalate, List.intersperse] using hw w (by simp)
    | cons v vs2 =>
      rw [intercalate_cons_of_ne_nil w (v :: vs2) (by simp)]
      have := hw w (by simp)
      intro hc
      rcases List.append_eq_nil.mp hc with ⟨h1, _⟩
      exact this h1

/-- A run of word characters extends the current (word) chunk. -/
theorem chunksGo_word_run (w : Str) : ∀ (cur : Str) (rest : Str),
    (∀ c ∈ w, isUniWs c = false) →
    chunksGo cur false (w ++ rest) = chunksGo (w.reverse ++ cur) false rest := by
  induction w with
  | nil => intro cur rest h; simp
  | cons c cs ih =>
    intro cur rest h
    have hc : isUniWs c = false := h c (by simp)
    simp only [List.cons_append, chunksGo, hc, if_pos]
    show chunksGo (c :: cur) false (cs ++ rest) = chunksGo ((c :: cs).reverse ++ cur) false rest
    rw [ih (c :: cur) rest (fun x hx => h x (by simp [hx]))]
    simp

/-- The chunks of a single-spaced word line, with an optional trailing
space: words alternating with single spaces (the trailing space is its
own chunk). -/
theorem chunksOf_words_tail : ∀ (ws : List Str), ws ≠ [] →
    (∀ w ∈ ws, w ≠ [] ∧ ∀ c ∈ w, isUniWs c = false) →
    ∀ (tail : Str), (tail = [] ∨ tail = [' ']) →
    chunksOf (List.intercalate [' '] ws ++ tail) =
      chunkSeq ws ++ (if tail = [] then [] else [[' ']]) := by
  have hsp : isUniWs ' ' = true := by decide
  intro ws
  induction ws with
  | nil => intro h; cases h rfl
  | cons w ws ih =>
    intro _ hnice tail htail
    obtain ⟨hwne, hwch⟩ := hnice w (by simp)
    obtain ⟨c, w2, hw⟩ := List.exists_cons_of_ne_nil hwne
    have hc : isUniWs c = false := by
      apply hwch
      rw [hw]
      simp
    cases hws : ws with
    | nil =>
      have hint : List.intercalate [' '] [w] = w := joinSp_singleton w
      rw [hint, hw, List.cons_append, chunksOf, hc]
      rw [chunksGo_word_run w2 [c] tail
        (fun x hx => hwch x (by rw [hw]; simp [hx]))]
      rcases htail with h | h
      · subst h
        simp [chunksGo, chunkSeq, hw]
      · subst h
        simp [chunksGo, chunkSeq, hw, hsp]
    | cons v vs =>
      subst hws
      rw [intercalate_cons_of_ne_nil w (v :: vs) (by simp)]
      have hassoc : (w ++ ' ' :: List.intercalate [' '] (v :: vs)) ++ tail =
          w ++ ' ' :: (List.intercalate [' '] (v :: vs) ++ tail) := by
        simp
      rw [hassoc, hw, List.cons_append, chunksOf, hc]
      rw [chunksGo_word_run w2 [c] _
        (fun x hx => hwch x (by rw [hw]; simp [hx]))]
      obtain ⟨hvne, hvch⟩ := hnice v (by simp)
      obtain ⟨d, v2, hv⟩ := List.exists_cons_of_ne_nil hvne
      have hd : isUniWs d = false := by
        apply hvch
        rw [hv]
        simp
      obtain ⟨rest2, hIhead⟩ :
          ∃ rest2, List.intercalate [' '] (v :: vs) ++ tail = d :: rest2 := by
        cases vs with
        | nil =>
          refine ⟨v2 ++ tail, ?_⟩
          have hint2 : List.intercalate [' '] [v] = v := joinSp_singleton v
          rw [hint2, hv]
          rfl
        | cons u us =>
          refine ⟨v2 ++ ' ' :: List.intercalate [' '] (u :: us) ++ tail, ?_⟩
          rw [intercalate_cons_of_ne_nil v (u :: us) (by simp), hv]
          simp
      rw [hIhead]
      have hstep1 : chunksGo (w2.reverse ++ [c]) false (' ' :: (d :: rest2)) =
          (w2.reverse ++ [c]).reverse :: chunksGo [' '] true (d :: rest2) := by
        simp [chunksGo, hsp]
      have hstep2 : chunksGo [' '] true (d :: rest2) =
          [' '] :: chunksGo [d] (isUniWs d) rest2 := by
        simp [chunksGo, hd]
      have hstep3 : chunksGo [d] (isUniWs d) rest2 = chunksOf (d :: rest2) := rfl
      rw [hstep1, hstep2, hstep3, ← hIhead]
      rw [ih (by simp) (fun x hx => hnice x (List.mem_cons_of_mem w hx)) tail htail]
      have hcs : chunkSeq ((c :: w2) :: v :: vs) = (c :: w2) :: [' '] :: chunkSeq (v :: vs) := rfl
      rw [hcs]
      simp

theorem beq_space_false_of_not_ws (c : Char) (h : isUniWs c = false) :
    (c == ' ') = false := by
  by_contra hc
  rw [Bool.not_eq_false, beq_iff_eq] at hc
  subst hc
  exact absurd h (by decide)

theorem isWsChunk_false_of_word (x : Str) (hne : x ≠ [])
    (hch : ∀ c ∈ x, isUniWs c = false) : isWsChunk x = false := by
  cases x with
  | nil => cases hne rfl
  | cons d x2 =>
    have hd : isUniWs d = false := hch d (by simp)
    simp [isWsChunk, hd]

theorem chunkSeq_cons (w : Str) (ws : List Str) :
    ∃ r, chunkSeq (w :: ws) = w :: r := by
  cases ws <;> exact ⟨_, rfl⟩

theorem chunkSeq_getLast (ws : List Str) (h : ws ≠ []) :
    ∃ x, x ∈ ws ∧ (chunkSeq ws).getLast? = some x := by
  induction ws with
  | nil => cases h rfl
  | cons w ws ih =>
    cases ws with
    | nil => exact ⟨w, by simp, rfl⟩
    | cons v vs =>
      obtain ⟨x, hx, hlast⟩ := ih (by simp)
      obtain ⟨r, hr⟩ := chunkSeq_cons v vs
      refine ⟨x, by simp [List.mem_cons_of_mem, hx], ?_⟩
      rw [show chunkSeq (w :: v :: vs) = w :: [' '] :: chunkSeq (v :: vs) from rfl, hr]
      rw [List.getLast?_cons_cons, List.getLast?_cons_cons, ← hr, hlast]

theorem dropTrailWs_append_space (l : List Str) :
    dropTrailWs (l ++ [[' ']]) = l := by
  simp only [dropTrailWs, List.getLast?_concat]
  rw [if_pos (by decide)]
  exact List.dropLast_concat

theorem dropTrailWs_of_word_last (l : List Str) (x : Str)
    (hx : l.getLast? = some x) (h : isWsChunk x = false) :
    dropTrailWs l = l := by
  simp only [dropTrailWs, hx, h]
  simp

theorem greedyTake_cons_fit {w curLen : Nat} (ch : Str) (rest : List Str)
    (h : curLen + ch.length ≤ w) :
    greedyTake w curLen (ch :: rest) =
      (ch :: (greedyTake w (curLen + ch.length) rest).1,
       (greedyTake w (curLen + ch.length) rest).2) := by
  simp [greedyTake, h]

theorem greedyTake_cons_nofit {w curLen : Nat} (ch : Str) (rest : List Str)
    (h : ¬ (curLen + ch.length ≤ w)) :
    greedyTake w curLen (ch :: rest) = ([], ch :: rest) := by
  simp [greedyTake, h]

theorem intercalate_append_words (A B : List Str) (hA : A ≠ []) (hB : B ≠ []) :
    List.intercalate [' '] (A ++ B) =
      List.intercalate [' '] A ++ ' ' :: List.intercalate [' '] B := by
  induction A with
  | nil => cases hA rfl
  | cons x A2 ih =>
    cases hA2 : A2 with
    | nil =>
      have h1 : List.intercalate [' '] [x] = x := joinSp_singleton x
      rw [show (([x] : List Str) ++ B) = x :: B from rfl]
      rw [intercalate_cons_of_ne_nil x B hB, h1]
    | cons y ys =>
      subst hA2
      rw [show ((x :: y :: ys : List Str) ++ B) = x :: ((y :: ys) ++ B) from rfl]
      rw [intercalate_cons_of_ne_nil x _ (by simp)]
      rw [ih (by simp), intercalate_cons_of_ne_nil x _ (by simp)]
      simp

/-- Greedy packing on the chunk sequence of a word line: at least one
word is taken, and the split lands on a word boundary (taking or
leaving the boundary space). -/
theorem greedyTake_chunkSeq (w : Nat) : ∀ (ws : List Str) (x : Str)
    (T : List Str) (curLen : Nat),
    (T = [] ∨ T = [[' ']]) →
    curLen + x.length ≤ w →
    ∃ k, 1 ≤ k ∧ k ≤ (x :: ws).length ∧
      ((k = (x :: ws).length ∧
         (greedyTake w curLen (chunkSeq (x :: ws) ++ T) = (chunkSeq (x :: ws) ++ T, [])
          ∨ greedyTake w curLen (chunkSeq (x :: ws) ++ T) = (chunkSeq (x :: ws), T)))
       ∨ (k < (x :: ws).length ∧
         (greedyTake w curLen (chunkSeq (x :: ws) ++ T) =
             (chunkSeq ((x :: ws).take k), [' '] :: (chunkSeq ((x :: ws).drop k) ++ T))
          ∨ greedyTake w curLen (chunkSeq (x :: ws) ++ T) =
             (chunkSeq ((x :: ws).take k) ++ [[' ']],
              chunkSeq ((x :: ws).drop k) ++ T)))) := by
  intro ws
  induction ws with
  | nil =>
    intro x T curLen hT hfit
    refine ⟨1, le_refl 1, by simp, Or.inl ⟨by simp, ?_⟩⟩
    rcases hT with hT | hT
    · subst hT
      left
      rw [show chunkSeq [x] ++ ([] : List Str) = x :: [] from by simp [chunkSeq]]
      rw [greedyTake_cons_fit x [] hfit]
      simp [greedyTake, chunkSeq]
    · subst hT
      rw [show chunkSeq [x] ++ [[' ']] = x :: [[' ']] from by simp [chunkSeq]]
      rw [greedyTake_cons_fit x [[' ']] hfit]
      by_cases hsp : curLen + x.length + 1 ≤ w
      · left
        rw [greedyTake_cons_fit [' '] [] (by simpa using hsp)]
        simp [greedyTake, chunkSeq]
      · right
        rw [greedyTake_cons_nofit [' '] [] (by simpa using hsp)]
        simp [chunkSeq]
  | cons v vs ih =>
    intro x T curLen hT hfit
    have hcs : chunkSeq (x :: v :: vs) = x :: [' '] :: chunkSeq (v :: vs) := rfl
    obtain ⟨r, hr⟩ := chunkSeq_cons v vs
    rw [hcs]
    rw [show ((x :: [' '] :: chunkSeq (v :: vs)) ++ T) =
        x :: [' '] :: (chunkSeq (v :: vs) ++ T) from by simp]
    rw [greedyTake_cons_fit x _ hfit]
    by_cases hsp : curLen + x.length + 1 ≤ w
    · rw [greedyTake_cons_fit [' '] _ (by simpa using hsp)]
      by_cases hv : curLen + x.length + 1 + v.length ≤ w
      · obtain ⟨k, hk1, hk2, hshape⟩ := ih v T (curLen + x.length + 1) hT hv
        obtain ⟨k2, rfl⟩ : ∃ k2, k = k2 + 1 := ⟨k - 1, by omega⟩
        have harg : curLen + x.length + List.length [' '] = curLen + x.length + 1 := by
          simp
        rw [harg]
        rcases hshape with ⟨hklen, heq | heq⟩ | ⟨hklt, heq | heq⟩
        · refine ⟨k2 + 2, by omega, by simp at hk2 ⊢; omega,
            Or.inl ⟨by simp at hklen ⊢; omega, Or.inl ?_⟩⟩
          rw [heq]
        · refine ⟨k2 + 2, by omega, by simp at hk2 ⊢; omega,
            Or.inl ⟨by simp at hklen ⊢; omega, Or.inr ?_⟩⟩
          rw [heq]
        · refine ⟨k2 + 2, by omega, by simp at hk2 ⊢; omega,
            Or.inr ⟨by simp at hklt ⊢; omega, Or.inl ?_⟩⟩
          rw [heq]
          rw [show (v :: vs).take (k2 + 1) = v :: vs.take k2 from rfl]
          rw [show (x :: v :: vs).take (k2 + 2) = x :: v :: vs.take k2 from rfl]
          rw [show (v :: vs).drop (k2 + 1) = vs.drop k2 from rfl]
          rw [show (x :: v :: vs).drop (k2 + 2) = vs.drop k2 from rfl]
          rw [show chunkSeq (x :: v :: vs.take k2) =
              x :: [' '] :: chunkSeq (v :: vs.take k2) from rfl]
        · refine ⟨k2 + 2, by omega, by simp at hk2 ⊢; omega,
            Or.inr ⟨by simp at hklt ⊢; omega, Or.inr ?_⟩⟩
          rw [heq]
          rw [show (v :: vs).take (k2 + 1) = v :: vs.take k2 from rfl]
          rw [show (x :: v :: vs).take (k2 + 2) = x :: v :: vs.take k2 from rfl]
          rw [show (v :: vs).drop (k2 + 1) = vs.drop k2 from rfl]
          rw [show (x :: v :: vs).drop (k2 + 2) = vs.drop k2 from rfl]
          rw [show chunkSeq (x :: v :: vs.take k2) =
              x :: [' '] :: chunkSeq (v :: vs.take k2) from rfl]
          simp
      · refine ⟨1, le_refl 1, by simp, Or.inr ⟨by simp, Or.inr ?_⟩⟩
        rw [hr]
        rw [show ((v :: r) ++ T) = v :: (r ++ T) from rfl]
        rw [greedyTake_cons_nofit v (r ++ T) (by simp; omega)]
        rw [show (x :: v :: vs).take 1 = [x] from rfl]
        rw [show (x :: v :: vs).drop 1 = v :: vs from rfl]
        rw [hr]
        simp [chunkSeq]
    · refine ⟨1, le_refl 1, by simp, Or.inr ⟨by simp, Or.inl ?_⟩⟩
      rw [greedyTake_cons_nofit [' '] _ (by simpa using hsp)]
      rw [show (x :: v :: vs).take 1 = [x] from rfl]
      rw [show (x :: v :: vs).drop 1 = v :: vs from rfl]
      simp [chunkSeq]

/-- Evaluation of one wrap step once the greedy packing is known and no
chunk of the remainder overflows the whole width. -/
theorem wrapStep_eval (w : Nat) (hasLines : Bool) (c : Str)
    (rest chunks1 P1 P2 : List Str)
    (hc1 : (if hasLines ∧ isWsChunk c then rest else c :: rest) = chunks1)
    (hg : greedyTake w 0 chunks1 = (P1, P2))
    (hshort : ∀ d r2, P2 = d :: r2 → d.length ≤ w) :
    wrapStep w hasLines (c :: rest) =
      (if dropTrailWs P1 = [] then none else some (dropTrailWs P1).flatten, P2) := by
  simp only [wrapStep, hc1, hg]
  cases hP2 : P2 with
  | nil => rfl
  | cons d r2 =>
    have hd : ¬ (d.length > w) := by
      have := hshort d r2 hP2
      omega
    simp [hd]

theorem take_ne_nil_of_pos (ws : List Str) (k : Nat) (hk : 1 ≤ k) (h : ws ≠ []) :
    ws.take k ≠ [] := by
  cases ws with
  | nil => cases h rfl
  | cons a l =>
    cases k with
    | zero => omega
    | succ m => simp

/-- One outer wrap iteration on a word line emits a nonempty prefix of
the words as the line, leaving a word-boundary remainder. -/
theorem wrapStep_words (w : Nat) (ws : List Str) (T lead : List Str) (hasLines : Bool)
    (hne : ws ≠ [])
    (hnice : ∀ x ∈ ws, x ≠ [] ∧ ∀ c ∈ x, isUniWs c = false)
    (hfit : ∀ x ∈ ws, x.length ≤ w)
    (hT : T = [] ∨ T = [[' ']])
    (hlead : lead = [] ∨ (lead = [[' ']] ∧ hasLines = true)) :
    ∃ k rest, 1 ≤ k ∧ k ≤ ws.length ∧
      wrapStep w hasLines (lead ++ (chunkSeq ws ++ T)) =
        (some (joinSp (ws.take k)), rest) ∧
      ((k = ws.length ∧ (rest = [] ∨ rest = [[' ']])) ∨
       (k < ws.length ∧ (rest = [' '] :: (chunkSeq (ws.drop k) ++ T)
                          ∨ rest = chunkSeq (ws.drop k) ++ T))) := by
  obtain ⟨x, ws2, rfl⟩ := List.exists_cons_of_ne_nil hne
  obtain ⟨hxne, hxch⟩ := hnice x (by simp)
  have hx : isWsChunk x = false := isWsChunk_false_of_word x hxne hxch
  have hw1 : 1 ≤ w := by
    have h1 := hfit x (by simp)
    cases x with
    | nil => exact absurd rfl hxne
    | cons a b => simp [List.length_cons] at h1; omega
  obtain ⟨r0, hr0⟩ := chunkSeq_cons x ws2
  have hstep_eval : ∀ (P1 P2 : List Str),
      greedyTake w 0 (chunkSeq (x :: ws2) ++ T) = (P1, P2) →
      (∀ d r2, P2 = d :: r2 → d.length ≤ w) →
      wrapStep w hasLines (lead ++ (chunkSeq (x :: ws2) ++ T)) =
        (if dropTrailWs P1 = [] then none
         else some (dropTrailWs P1).flatten, P2) := by
    intro P1 P2 hg hshort
    rcases hlead with h | ⟨h, hHL⟩
    · subst h
      rw [List.nil_append]
      rw [hr0, show ((x :: r0) ++ T) = x :: (r0 ++ T) from rfl]
      exact wrapStep_eval w hasLines x (r0 ++ T) (chunkSeq (x :: ws2) ++ T) P1 P2
        (by rw [if_neg (by simp [hx]), ← List.cons_append, ← hr0]) hg hshort
    · subst h
      subst hHL
      rw [show (([[' ']] : List Str) ++ (chunkSeq (x :: ws2) ++ T)) =
          [' '] :: (chunkSeq (x :: ws2) ++ T) from rfl]
      exact wrapStep_eval w true [' '] (chunkSeq (x :: ws2) ++ T)
        (chunkSeq (x :: ws2) ++ T) P1 P2
        (by rw [if_pos ⟨rfl, by decide⟩]) hg hshort
  have hflat : ∀ (l : List Str), l ≠ [] →
      (∀ y ∈ l, y ≠ [] ∧ ∀ c ∈ y, isUniWs c = false) →
      dropTrailWs (chunkSeq l) = chunkSeq l := by
    intro l hl hn
    obtain ⟨y, hy, hlast⟩ := chunkSeq_getLast l hl
    exact dropTrailWs_of_word_last _ y hlast
      (isWsChunk_false_of_word y (hn y hy).1 (hn y hy).2)
  obtain ⟨k, hk1, hk2, hshape⟩ := greedyTake_chunkSeq w ws2 x T 0 hT
    (by have := hfit x (by simp); omega)
  rcases hshape with ⟨hklen, heq | heq⟩ | ⟨hklt, heq | heq⟩
  · rcases hT with hT | hT
    · subst hT
      rw [List.append_nil] at heq
      refine ⟨k, [], hk1, hk2, ?_, Or.inl ⟨hklen, Or.inl rfl⟩⟩
      rw [hstep_eval (chunkSeq (x :: ws2)) []
        (by rw [List.append_nil]; exact heq) (by intro d r2 h; simp at h)]
      rw [hflat (x :: ws2) (by simp) hnice]
      rw [if_neg (chunkSeq_ne_nil _ (by simp))]
      rw [hklen, List.take_length, chunkSeq_flatten]
      rfl
    · subst hT
      refine ⟨k, [], hk1, hk2, ?_, Or.inl ⟨hklen, Or.inl rfl⟩⟩
      rw [hstep_eval (chunkSeq (x :: ws2) ++ [[' ']]) [] heq
        (by intro d r2 h; simp at h)]
      rw [dropTrailWs_append_space]
      rw [if_neg (chunkSeq_ne_nil _ (by simp))]
      rw [hklen, List.take_length, chunkSeq_flatten]
      rfl
  · refine ⟨k, T, hk1, hk2, ?_, Or.inl ⟨hklen, hT⟩⟩
    rw [hstep_eval (chunkSeq (x :: ws2)) T heq ?hsh]
    case hsh =>
      intro d r2 h
      rcases hT with h1 | h1
      · subst h1; simp at h
      · subst h1
        simp only [List.cons.injEq] at h
        rw [← h.1]
        simpa using hw1
    rw [hflat (x :: ws2) (by simp) hnice]
    rw [if_neg (chunkSeq_ne_nil _ (by simp))]
    rw [hklen, List.take_length, chunkSeq_flatten]
    rfl
  · refine ⟨k, [' '] :: (chunkSeq ((x :: ws2).drop k) ++ T), hk1, hk2, ?_,
      Or.inr ⟨hklt, Or.inl rfl⟩⟩
    rw [hstep_eval (chunkSeq ((x :: ws2).take k))
      ([' '] :: (chunkSeq ((x :: ws2).drop k) ++ T)) heq ?hsh2]
    case hsh2 =>
      intro d r2 h
      simp only [List.cons.injEq] at h
      rw [← h.1]
      simpa using hw1
    rw [hflat ((x :: ws2).take k) (take_ne_nil_of_pos _ k hk1 (by simp))
      (fun y hy => hnice y (List.take_subset k (x :: ws2) hy))]
    rw [if_neg (chunkSeq_ne_nil _ (take_ne_nil_of_pos _ k hk1 (by simp)))]
    rw [chunkSeq_flatten]
    rfl
  · refine ⟨k, chunkSeq ((x :: ws2).drop k) ++ T, hk1, hk2, ?_,
      Or.inr ⟨hklt, Or.inr rfl⟩⟩
    have hdne : (x :: ws2).drop k ≠ [] := by
      intro hc
      have hlen := congrArg List.length hc
      simp only [List.length_drop, List.length_cons, List.length_nil] at hlen
      have hklt2 : k < ws2.length + 1 := by simpa using hklt
      omega
    obtain ⟨v, vtl, hvd⟩ := List.exists_cons_of_ne_nil hdne
    obtain ⟨r2v, hr2v⟩ := chunkSeq_cons v vtl
    rw [hstep_eval (chunkSeq ((x :: ws2).take k) ++ [[' ']])
      (chunkSeq ((x :: ws2).drop k) ++ T) heq ?hsh3]
    case hsh3 =>
      intro d r2 h
      rw [hvd, hr2v, List.cons_append] at h
      simp only [List.cons.injEq] at h
      rw [← h.1]
      have hv : v ∈ x :: ws2 := by
        apply List.drop_subset k (x :: ws2)
        rw [hvd]
        simp
      exact hfit v hv
    rw [dropTrailWs_append_space]
    rw [if_neg (chunkSeq_ne_nil _ (take_ne_nil_of_pos _ k hk1 (by simp)))]
    rw [chunkSeq_flatten]
    rfl

theorem wrapGo_nil_chunks (w : Nat) (f : Nat) (b : Bool) (a : List Str) :
    wrapGo w f [] b a = a.reverse := by
  cases f <;> rfl

theorem wrapGo_space_only (w : Nat) (f : Nat) (a : List Str) :
    wrapGo w f [[' ']] true a = a.reverse := by
  cases f with
  | zero => rfl
  | succ g =>
    rw [show wrapGo w (g + 1) [[' ']] true a = wrapGo w g [] true a from rfl]
    exact wrapGo_nil_chunks w g true a

theorem wrapGo_cons_eval (w : Nat) (f : Nat) (hasLines : Bool) (acc : List Str)
    (c : Str) (cs : List Str) (l : Str) (rest : List Str)
    (hs : wrapStep w hasLines (c :: cs) = (some l, rest)) :
    wrapGo w (f + 1) (c :: cs) hasLines acc = wrapGo w f rest true (l :: acc) := by
  simp only [wrapGo, hs]

theorem joinSp_cons_ne_nil (a : Str) (L : List Str) (h : L ≠ []) :
    joinSp (a :: L) = a ++ ' ' :: joinSp L :=
  intercalate_cons_of_ne_nil a L h

theorem joinSp_take_drop (ws : List Str) (k : Nat) (h1 : 1 ≤ k)
    (h2 : k < ws.length) :
    joinSp (ws.take k) ++ ' ' :: joinSp (ws.drop k) = joinSp ws := by
  have hne : ws ≠ [] := by
    intro h
    subst h
    simp at h2
  have hA : ws.take k ≠ [] := take_ne_nil_of_pos ws k h1 hne
  have hB : ws.drop k ≠ [] := by
    intro hc
    have hlen := congrArg List.length hc
    simp only [List.length_drop, List.length_nil] at hlen
    omega
  have h := intercalate_append_words (ws.take k) (ws.drop k) hA hB
  rw [List.take_append_drop] at h
  exact h.symm

/-- The outer wrap loop on a word line: all its output lines together
carry exactly the original words, in order, separated by single
spaces. -/
theorem wrapGo_words (w : Nat) : ∀ (fuel : Nat) (ws : List Str) (T lead : List Str)
    (hasLines : Bool) (acc : List Str),
    ws ≠ [] →
    (∀ x ∈ ws, x ≠ [] ∧ ∀ c ∈ x, isUniWs c = false) →
    (∀ x ∈ ws, x.length ≤ w) →
    (T = [] ∨ T = [[' ']]) →
    (lead = [] ∨ (lead = [[' ']] ∧ hasLines = true)) →
    ws.length ≤ fuel →
    ∃ L, wrapGo w fuel (lead ++ (chunkSeq ws ++ T)) hasLines acc =
        acc.reverse ++ L ∧ L ≠ [] ∧ joinSp L = joinSp ws := by
  intro fuel
  induction fuel with
  | zero =>
    intro ws T lead hasLines acc hne _ _ _ _ hf
    cases ws with
    | nil => exact absurd rfl hne
    | cons a l => simp at hf
  | succ f ih =>
    intro ws T lead hasLines acc hne hnice hfit hT hlead hf
    obtain ⟨k, rest, hk1, hk2, hstep, hshape⟩ :=
      wrapStep_words w ws T lead hasLines hne hnice hfit hT hlead
    obtain ⟨c0, cs0, hchunks⟩ :
        ∃ c0 cs0, lead ++ (chunkSeq ws ++ T) = c0 :: cs0 := by
      rcases hlead with h | ⟨h, _⟩
      · subst h
        obtain ⟨x, ws2, hxw⟩ := List.exists_cons_of_ne_nil hne
        obtain ⟨r0, hr0⟩ := chunkSeq_cons x ws2
        exact ⟨x, r0 ++ T, by rw [hxw, hr0]; simp⟩
      · subst h
        exact ⟨[' '], chunkSeq ws ++ T, rfl⟩
    rw [hchunks] at hstep ⊢
    rw [wrapGo_cons_eval w f hasLines acc c0 cs0 _ rest hstep]
    rcases hshape with ⟨hklen, hrest⟩ | ⟨hklt, hrest⟩
    · have hjoin : joinSp [joinSp (ws.take k)] = joinSp ws := by
        rw [hklen, List.take_length]
        exact joinSp_singleton _
      rcases hrest with h | h
      · subst h
        rw [wrapGo_nil_chunks]
        exact ⟨[joinSp (ws.take k)], by simp, by simp, hjoin⟩
      · subst h
        rw [wrapGo_space_only]
        exact ⟨[joinSp (ws.take k)], by simp, by simp, hjoin⟩
    · have hne2 : ws.drop k ≠ [] := by
        intro hc
        have hlen := congrArg List.length hc
        simp only [List.length_drop, List.length_nil] at hlen
        omega
      have hnice2 : ∀ x ∈ ws.drop k, x ≠ [] ∧ ∀ c ∈ x, isUniWs c = false :=
        fun x hx => hnice x (List.drop_subset k ws hx)
      have hfit2 : ∀ x ∈ ws.drop k, x.length ≤ w :=
        fun x hx => hfit x (List.drop_subset k ws hx)
      have hf2 : (ws.drop k).length ≤ f := by
        simp only [List.length_drop]
        omega
      have hfinish : ∀ (L2 : List Str),
          L2 ≠ [] → joinSp L2 = joinSp (ws.drop k) →
          joinSp (joinSp (ws.take k) :: L2) = joinSp ws := by
        intro L2 hL2ne hL2join
        rw [joinSp_cons_ne_nil _ L2 hL2ne, hL2join]
        exact joinSp_take_drop ws k hk1 hklt
      rcases hrest with h | h
      · subst h
        obtain ⟨L2, hL2, hL2ne, hL2join⟩ := ih (ws.drop k) T [[' ']] true
          (joinSp (ws.take k) :: acc) hne2 hnice2 hfit2 hT (Or.inr ⟨rfl, rfl⟩) hf2
        refine ⟨joinSp (ws.take k) :: L2, ?_, by simp, hfinish L2 hL2ne hL2join⟩
        rw [show ([' '] :: (chunkSeq (ws.drop k) ++ T)) =
            [[' ']] ++ (chunkSeq (ws.drop k) ++ T) from rfl]
        rw [hL2]
        simp
      · subst h
        obtain ⟨L2, hL2, hL2ne, hL2join⟩ := ih (ws.drop k) T [] true
          (joinSp (ws.take k) :: acc) hne2 hnice2 hfit2 hT (Or.inl rfl) hf2
        refine ⟨joinSp (ws.take k) :: L2, ?_, by simp, hfinish L2 hL2ne hL2join⟩
        rw [show (chunkSeq (ws.drop k) ++ T) =
            [] ++ (chunkSeq (ws.drop k) ++ T) from rfl]
        rw [hL2]
        simp

theorem mem_intercalate_sp : ∀ (ws : List Str) (c : Char),
    c ∈ List.intercalate [' '] ws → c = ' ' ∨ ∃ x ∈ ws, c ∈ x := by
  intro ws
  induction ws with
  | nil => intro c h; simp [List.intercalate] at h
  | cons x ws ih =>
    intro c h
    cases hws : ws with
    | nil =>
      subst hws
      have h1 : List.intercalate [' '] [x] = x := joinSp_singleton x
      rw [h1] at h
      exact Or.inr ⟨x, by simp, h⟩
    | cons v vs =>
      subst hws
      rw [intercalate_cons_of_ne_nil x _ (by simp)] at h
      rcases List.mem_append.mp h with h | h
      · exact Or.inr ⟨x, by simp, h⟩
      · rcases List.mem_cons.mp h with h | h
        · exact Or.inl h
        · rcases ih c h with h | ⟨y, hy, hc⟩
          · exact Or.inl h
          · exact Or.inr ⟨y, by simp [hy], hc⟩

theorem map_self_of_fixed : ∀ (s : Str) (f : Char → Char),
    (∀ c ∈ s, f c = c) → s.map f = s := by
  intro s f
  induction s with
  | nil => intro _; rfl
  | cons c cs ih =>
    intro h
    simp only [List.map_cons]
    rw [h c (by simp), ih (fun x hx => h x (by simp [hx]))]

/-- _munge_whitespace is the identity on a single-spaced line of
whitespace-free words, and turns a trailing newline into a space. -/
theorem munge_word_line (ws : List Str) (tail : Str)
    (hnice : ∀ x ∈ ws, ∀ c ∈ x, isUniWs c = false)
    (htail : tail = [] ∨ tail = ['\n']) :
    munge (joinSp ws ++ tail) =
      joinSp ws ++ (if tail = [] then [] else [' ']) := by
  have hchars : ∀ c ∈ joinSp ws, c = ' ' ∨ isPyWs c = false := by
    intro c hc
    rcases mem_intercalate_sp ws c hc with h | ⟨x, hx, hcx⟩
    · exact Or.inl h
    · exact Or.inr (isPyWs_false_of_not_uni c (hnice x hx c hcx))
  have hnotab : ∀ c ∈ joinSp ws ++ tail, c ≠ '\t' := by
    intro c hc
    rcases List.mem_append.mp hc with h | h
    · rcases hchars c h with h | h
      · subst h; decide
      · intro he
        subst he
        exact absurd h (by decide)
    · rcases htail with ht | ht
      · subst ht; simp at h
      · subst ht
        simp at h
        subst h
        decide
  simp only [munge]
  rw [expandTabsGo_id _ 0 hnotab]
  rw [List.map_append]
  rw [map_self_of_fixed (joinSp ws) _ (by
    intro c hc
    rcases hchars c hc with h | h
    · subst h; simp
    · simp [h])]
  congr 1
  rcases htail with ht | ht
  · subst ht; simp
  · subst ht
    simp only [List.map_cons, List.map_nil]
    rw [show (if isPyWs '\n' then ' ' else '\n') = ' ' from by decide]
    simp

theorem splitKeep_no_brk : ∀ (p : Str), p ≠ [] →
    (∀ c ∈ p, isLineBreak c = false) → splitKeep p = [p] := by
  intro p
  induction p with
  | nil => intro h _; cases h rfl
  | cons c cs ih =>
    intro _ h
    cases hcs : cs with
    | nil => rfl
    | cons d cs2 =>
      subst hcs
      have hc : isLineBreak c = false := h c (by simp)
      have hcr : c ≠ '\r' := by
        intro he
        subst he
        exact absurd hc (by decide)
      rw [splitKeep]
      rw [if_neg hcr, if_neg (by simp [hc])]
      rw [ih (by simp) (fun x hx => h x (by simp [hx]))]

/-- splitlines starts a fresh line right after a LF. -/
theorem splitKeep_nl_cons (rest : Str) :
    splitKeep ('\n' :: rest) = ['\n'] :: splitKeep rest := by
  cases rest with
  | nil => rfl
  | cons r rest2 =>
    rw [splitKeep]
    rw [if_neg (by decide), if_pos (by decide)]

theorem splitKeep_append_nl : ∀ (p rest : Str),
    (∀ c ∈ p, isLineBreak c = false) →
    splitKeep (p ++ '\n' :: rest) = (p ++ ['\n']) :: splitKeep rest := by
  intro p
  induction p with
  | nil =>
    intro rest _
    rw [List.nil_append, splitKeep_nl_cons]
    rfl
  | cons c cs ih =>
    intro rest h
    have hc : isLineBreak c = false := h c (by simp)
    have hcr : c ≠ '\r' := by
      intro he
      subst he
      exact absurd hc (by decide)
    rw [List.cons_append]
    cases cs with
    | nil =>
      rw [List.nil_append, splitKeep]
      rw [if_neg hcr, if_neg (by simp [hc]), splitKeep_nl_cons]
      rfl
    | cons e cs2 =>
      rw [show ((e :: cs2 : Str) ++ '\n' :: rest) = e :: (cs2 ++ '\n' :: rest)
        from rfl]
      rw [splitKeep]
      rw [if_neg hcr, if_neg (by simp [hc])]
      rw [show (e :: (cs2 ++ '\n' :: rest) : Str) = (e :: cs2) ++ '\n' :: rest
        from rfl]
      rw [ih rest (fun x hx => h x (by simp [hx]))]
      rfl

/-- str.splitlines(keepends=True) restores each joined line, the
newline kept on every line but the last. -/
def withNl : List Str → List Str
  | [] => []
  | [p] => [p]
  | p :: ps => (p ++ ['\n']) :: withNl ps

theorem intercalate_single {α : Type} (sep : List α) (p : List α) :
    List.intercalate sep [p] = p := by
  simp [List.intercalate]

theorem intercalate_nl_cons (p : Str) (ps : List Str) (h : ps ≠ []) :
    List.intercalate ['\n'] (p :: ps) =
      p ++ '\n' :: List.intercalate ['\n'] ps := by
  cases ps with
  | nil => cases h rfl
  | cons v vs => simp [List.intercalate, List.intersperse]

theorem splitKeep_intercalate_nl : ∀ (ps : List Str), ps ≠ [] →
    (∀ p ∈ ps, p ≠ [] ∧ ∀ c ∈ p, isLineBreak c = false) →
    splitKeep (List.intercalate ['\n'] ps) = withNl ps := by
  intro ps
  induction ps with
  | nil => intro h _; cases h rfl
  | cons p ps ih =>
    intro _ h
    cases hps : ps with
    | nil =>
      subst hps
      rw [intercalate_single]
      rw [splitKeep_no_brk p (h p (by simp)).1 (h p (by simp)).2]
      rfl
    | cons q qs =>
      subst hps
      rw [intercalate_nl_cons p _ (by simp)]
      rw [splitKeep_append_nl _ _ (h p (by simp)).2]
      rw [ih (by simp) (fun x hx => h x (by simp [hx]))]
      rfl

/-- textwrap.wrap on a single-spaced word line (with or without a
trailing newline): nonempty output whose space-joined rows restore the
line. -/
theorem wrapL_words (w : Nat) (ws : List Str) (tail : Str)
    (hne : ws ≠ [])
    (hnice : ∀ x ∈ ws, x ≠ [] ∧ ∀ c ∈ x, isUniWs c = false)
    (hfit : ∀ x ∈ ws, x.length ≤ w)
    (htail : tail = [] ∨ tail = ['\n']) :
    wrapL w (joinSp ws ++ tail) ≠ [] ∧
      joinSp (wrapL w (joinSp ws ++ tail)) = joinSp ws := by
  have hb : ∀ x ∈ ws, x ≠ [] ∧ ∀ c ∈ x, isUniWs c = false := hnice
  have hm := munge_word_line ws tail (fun x hx => (hnice x hx).2) htail
  rcases htail with ht | ht
  · subst ht
    rw [if_pos rfl, List.append_nil] at hm
    simp only [List.append_nil]
    have hc : chunksOf (joinSp ws) = chunkSeq ws := by
      have h := chunksOf_words_tail ws hne hb [] (Or.inl rfl)
      simpa using h
    simp only [wrapL]
    rw [hm, hc]
    obtain ⟨L, hL, hLne, hLjoin⟩ := wrapGo_words w
      (sumLen (chunkSeq ws) + (chunkSeq ws).length + 1) ws [] [] false []
      hne hnice hfit (Or.inl rfl) (Or.inl rfl) (by
        have h1 := chunkSeq_length_ge ws
        omega)
    simp only [List.nil_append, List.append_nil, List.reverse_nil] at hL
    rw [hL]
    exact ⟨hLne, hLjoin⟩
  · subst ht
    rw [if_neg (by simp)] at hm
    have hc : chunksOf (joinSp ws ++ [' ']) = chunkSeq ws ++ [[' ']] := by
      have h := chunksOf_words_tail ws hne hb [' '] (Or.inr rfl)
      simpa using h
    simp only [wrapL]
    rw [hm, hc]
    obtain ⟨L, hL, hLne, hLjoin⟩ := wrapGo_words w
      (sumLen (chunkSeq ws ++ [[' ']]) + (chunkSeq ws ++ [[' ']]).length + 1)
      ws [[' ']] [] false []
      hne hnice hfit (Or.inr rfl) (Or.inl rfl) (by
        have h1 := chunkSeq_length_ge ws
        simp only [List.length_append]
        omega)
    simp only [List.nil_append, List.reverse_nil] at hL
    rw [hL]
    exact ⟨hLne, hLjoin⟩

/-- Wrapping each kept-newline line and re-joining rows by spaces
restores the original space-joined lines. -/
theorem wrapped_lines_joinSp (w : Nat) : ∀ (wss : List (List Str)),
    wss ≠ [] →
    (∀ ws ∈ wss, ws ≠ [] ∧ ∀ x ∈ ws, x ≠ [] ∧ ∀ c ∈ x, isUniWs c = false) →
    (∀ ws ∈ wss, ∀ x ∈ ws, x.length ≤ w) →
    ((withNl (wss.map joinSp)).map
        (fun i => if wrapL w i = [] then [[' ']] else wrapL w i)).map joinSp =
      wss.map joinSp := by
  intro wss
  induction wss with
  | nil => intro h; cases h rfl
  | cons ws wss ih =>
    intro _ hnice hfit
    obtain ⟨hwsne, hwords⟩ := hnice ws (by simp)
    cases hwss : wss with
    | nil =>
      subst hwss
      obtain ⟨hne2, hj⟩ := wrapL_words w ws [] hwsne hwords
        (hfit ws (by simp)) (Or.inl rfl)
      rw [List.append_nil] at hne2 hj
      simp only [List.map_cons, List.map_nil]
      rw [show withNl [joinSp ws] = [joinSp ws] from rfl]
      simp only [List.map_cons, List.map_nil]
      rw [if_neg hne2, hj]
    | cons ws2 wss2 =>
      subst hwss
      obtain ⟨hne2, hj⟩ := wrapL_words w ws ['\n'] hwsne hwords
        (hfit ws (by simp)) (Or.inr rfl)
      have ihh := ih (by simp) (fun a ha => hnice a (by simp [ha]))
        (fun a ha => hfit a (by simp [ha]))
      simp only [List.map_cons] at ihh ⊢
      rw [show withNl (joinSp ws :: joinSp ws2 :: List.map joinSp wss2) =
          (joinSp ws ++ ['\n']) :: withNl (joinSp ws2 :: List.map joinSp wss2)
          from rfl]
      simp only [List.map_cons]
      rw [if_neg hne2, hj]
      rw [ihh]

/-- buffer_set always succeeds with the cursor at the origin, and never
touches the row structure. -/
theorem bufferSet_origin (s : EditorState) (h1 : s.curPosY = 0)
    (h2 : s.yOffset = 0) :
    ∃ t, bufferSet s = some t ∧ t.text = s.text := by
  obtain ⟨e, tl, hbl⟩ := List.exists_cons_of_ne_nil (buildBufferList_ne_nil s.text)
  have hget : pyGet (buildBufferList s.text) (s.curPosY + s.yOffset) = some e := by
    rw [h1, h2, hbl]
    simp [pyGet]
  cases hb : bufferSet s with
  | none =>
    exfalso
    simp only [bufferSet, hget] at hb
    exact Option.noConfusion hb
  | some t =>
    refine ⟨t, rfl, ?_⟩
    simp only [bufferSet, hget] at hb
    cases hb
    rfl

/-- C2: constructing an Editor from a nonempty, trailing-newline-free
text whose newline-separated lines are single-spaced sequences of
nonempty hyphen-free words containing no Python whitespace (the
str.isspace set, which includes every splitlines boundary character),
each word at most the wrap width, then serializing, reproduces the
text exactly. -/
theorem C2_roundtrip_amended (wss : List (List Str)) (winY winX : Int)
    (maxT : Nat) (pw : Bool)
    (hne : wss ≠ [])
    (hnice : ∀ ws ∈ wss, ws ≠ [] ∧ ∀ x ∈ ws, x ≠ [] ∧
      ∀ c ∈ x, isUniWs c = false ∧ c ≠ '-')
    (hfit : ∀ ws ∈ wss, ∀ x ∈ ws, x.length ≤ (winX - 1).toNat)
    (hwin : ¬ (winY < 2 ∧ maxT = 1)) :
    ∃ s, initEditor (List.intercalate ['\n'] (wss.map joinSp)) winY winX maxT pw
        = some s ∧
      serialize s.text = List.intercalate ['\n'] (wss.map joinSp) := by
  have hnice' : ∀ ws ∈ wss, ws ≠ [] ∧ ∀ x ∈ ws, x ≠ [] ∧
      ∀ c ∈ x, isUniWs c = false :=
    fun ws hws => ⟨(hnice ws hws).1, fun x hx => ⟨((hnice ws hws).2 x hx).1,
      fun c hc => (((hnice ws hws).2 x hx).2 c hc).1⟩⟩
  have hlines : ∀ p ∈ wss.map joinSp, p ≠ [] ∧ ∀ c ∈ p, isLineBreak c = false := by
    intro p hp
    obtain ⟨ws, hws, rfl⟩ := List.mem_map.mp hp
    refine ⟨intercalate_words_ne_nil ws (hnice' ws hws).1
      (fun x hx => ((hnice' ws hws).2 x hx).1), ?_⟩
    intro c hc
    rcases mem_intercalate_sp ws c hc with h | ⟨x, hx, hcx⟩
    · subst h
      decide
    · exact isLineBreak_false_of_not_uni c (((hnice' ws hws).2 x hx).2 c hcx)
  have htxtne : List.intercalate ['\n'] (wss.map joinSp) ≠ [] := by
    obtain ⟨ws, wss2, rfl⟩ := List.exists_cons_of_ne_nil hne
    simp only [List.map_cons]
    cases h2 : List.map joinSp wss2 with
    | nil =>
      rw [intercalate_single]
      exact (hlines (joinSp ws) (by simp)).1
    | cons q qs =>
      rw [intercalate_nl_cons _ _ (by simp)]
      simp
  have hsplit : splitKeep (List.intercalate ['\n'] (wss.map joinSp)) =
      withNl (wss.map joinSp) :=
    splitKeep_intercalate_nl (wss.map joinSp)
      (by intro h; exact hne (List.map_eq_nil_iff.mp h)) hlines
  have hml := wrapped_lines_joinSp (winX - 1).toNat wss hne hnice' hfit
  have hxs : decide (winY < 2 ∧ maxT = 1) = false := decide_eq_false hwin
  simp only [initEditor]
  rw [if_neg htxtne]
  simp only [textInit, hsplit, hxs]
  simp only [if_true]
  obtain ⟨t, hbs, htext⟩ := bufferSet_origin
    { text := (withNl (wss.map joinSp)).map
        (fun i => if wrapL (winX - 1).toNat i = [] then [[' ']]
                  else wrapL (winX - 1).toNat i),
      curPosY := 0, curPosX := 0, yOffset := 0, xOffset := 0,
      winSizeY := winY, winSizeX := winX,
      maxTextSize := maxT, pwMode := pw, xScroll := false,
      spaceCounter := 0, maxCols := 0, numRows := 0,
      bufferIdxY := 0, bufferIdxX := 0, bufferList := [], bufLength := 0,
      cancelled := false, aborted := false } rfl rfl
  rw [hbs]
  have hif : ∀ (u : EditorState) (p : Prop) (inst : Decidable p) (n : Nat),
      (@ite _ p inst { u with maxTextSize := n } u).text = u.text := by
    intro u p inst n
    cases inst <;> rfl
  refine ⟨_, rfl, ?_⟩
  rw [hif, htext]
  simp only [serialize]
  rw [hml]

theorem C2_roundtrip_amended_witness :
    ∃ s, initEditor
        (List.intercalate ['\n']
          (([[['a', 'b'], ['c', 'd']]] : List (List Str)).map joinSp))
        10 5 0 false = some s ∧
      serialize s.text =
        List.intercalate ['\n']
          (([[['a', 'b'], ['c', 'd']]] : List (List Str)).map joinSp) :=
  C2_roundtrip_amended [[['a', 'b'], ['c', 'd']]] 10 5 0 false
    (by decide) (by decide) (by decide) (by decide)

/-!
## Masked-mode noninterference

pw_mode is consulted only in display; the whole editing engine is
equivariant under flipping it.
-/

/-- Flip the masked-display flag. -/
def setPw (b : Bool) (s : EditorState) : EditorState := { s with pwMode := b }

/-- The run-loop turns of a sequence of insertion keystrokes. -/
def applyInserts : List Char → EditorState → Option EditorState
  | [], s => some s
  | c :: cs, s => (stepEditing (Key.ch c) s).bind (applyInserts cs)

theorem bufferSet_setPw (b : Bool) (s : EditorState) :
    bufferSet (setPw b s) = (bufferSet s).map (setPw b) := by
  simp only [bufferSet, setPw]
  cases h : pyGet (buildBufferList s.text) (s.curPosY + s.yOffset) <;>
    simp [h, setPw]

theorem endOfLineCheck_setPw (b : Bool) (s : EditorState) :
    endOfLineCheck (setPw b s) = (endOfLineCheck s).map (setPw b) := by
  simp only [endOfLineCheck]
  rw [bufferSet_setPw]
  cases h : bufferSet s with
  | none => simp
  | some u =>
    simp [setPw]
    split <;> simp

theorem up_setPw (b : Bool) (s : EditorState) :
    up (setPw b s) = (up s).map (setPw b) := by
  by_cases h : s.curPosY > 0
  · have l : up (setPw b s) =
        endOfLineCheck (setPw b { s with curPosY := s.curPosY - 1 }) := by
      simp [up, setPw, h]
    have r : up s = endOfLineCheck { s with curPosY := s.curPosY - 1 } := by
      simp [up, h]
    rw [l, r, endOfLineCheck_setPw]
  · have l : up (setPw b s) =
        endOfLineCheck (setPw b { s with yOffset := max 0 (s.yOffset - 1) }) := by
      simp [up, setPw, h]
    have r : up s = endOfLineCheck { s with yOffset := max 0 (s.yOffset - 1) } := by
      simp [up, h]
    rw [l, r, endOfLineCheck_setPw]

theorem down_setPw (b : Bool) (s : EditorState) :
    down (setPw b s) = (down s).map (setPw b) := by
  by_cases h1 : s.curPosY < s.winSizeY - 1 ∧ s.bufferIdxY < (s.numRows : Int) - 1
  · have l : down (setPw b s) =
        endOfLineCheck (setPw b { s with curPosY := s.curPosY + 1 }) := by
      simp [down, setPw, h1]
    have r : down s = endOfLineCheck { s with curPosY := s.curPosY + 1 } := by
      simp [down, h1]
    rw [l, r, endOfLineCheck_setPw]
  · by_cases h2 : s.bufferIdxY = (s.numRows : Int) - 1
    · have l : down (setPw b s) = some (setPw b s) := by
        simp [down, setPw, h1, h2]
      have r : down s = some s := by
        simp [down, h1, h2]
      rw [l, r]
      rfl
    · have l : down (setPw b s) =
          endOfLineCheck (setPw b { s with
            yOffset := min ((s.numRows : Int) - s.winSizeY) (s.yOffset + 1) }) := by
        simp [down, setPw, h1, h2]
      have r : down s =
          endOfLineCheck { s with
            yOffset := min ((s.numRows : Int) - s.winSizeY) (s.yOffset + 1) } := by
        simp [down, h1, h2]
      rw [l, r, endOfLineCheck_setPw]

theorem endOp_setPw (b : Bool) (s : EditorState) :
    endOp (setPw b s) = setPw b (endOp s) := rfl

theorem right_setPw (b : Bool) (s : EditorState) :
    right (setPw b s) = (right s).map (setPw b) := by
  by_cases h1 : s.curPosX < (s.bufLength : Int)
  · have l : right (setPw b s) = some (setPw b { s with curPosX := s.curPosX + 1 }) := by
      simp [right, setPw, h1]
    have r : right s = some { s with curPosX := s.curPosX + 1 } := by
      simp [right, h1]
    rw [l, r]
    rfl
  · by_cases h2 : s.bufferIdxY < (s.numRows : Int) - 1
    · have l : right (setPw b s) = down (setPw b { s with curPosX := 0 }) := by
        simp [right, setPw, h1, h2]
      have r : right s = down { s with curPosX := 0 } := by
        simp [right, h1, h2]
      rw [l, r, down_setPw]
    · have l : right (setPw b s) = some (setPw b s) := by
        simp [right, setPw, h1, h2]
      have r : right s = some s := by
        simp [right, h1, h2]
      rw [l, r]
      rfl

theorem getCurWord_setPw (b : Bool) (s : EditorState) (t : Str) (f : Bool) :
    getCurWord (setPw b s) t f = getCurWord s t f := rfl

theorem wordWrapJump_setPw (cw cww : Str) (b : Bool) (s : EditorState) :
    wordWrapJump cw cww (setPw b s) = (wordWrapJump cw cww s).map (setPw b) := by
  simp only [wordWrapJump, setPw]
  split
  · cases hp : pyGet s.bufferList (s.bufferIdxY - 1) with
    | none => simp
    | some prev =>
      simp only
      split
      · rw [show ({ s with pwMode := b } : EditorState) = setPw b s from rfl,
          up_setPw]
        cases hu : up s <;> simp [endOp, setPw]
      · cases hc : pyGet s.bufferList s.bufferIdxY with
        | none => simp
        | some cur =>
          simp only
          split <;> simp [setPw]
  · simp [setPw]

theorem setPw_text (b : Bool) (s : EditorState) : (setPw b s).text = s.text := rfl

theorem setPw_bufferList (b : Bool) (s : EditorState) :
    (setPw b s).bufferList = s.bufferList := rfl

theorem setPw_bufferIdxY (b : Bool) (s : EditorState) :
    (setPw b s).bufferIdxY = s.bufferIdxY := rfl

theorem setPw_bufferIdxX (b : Bool) (s : EditorState) :
    (setPw b s).bufferIdxX = s.bufferIdxX := rfl

theorem setPw_winSizeX (b : Bool) (s : EditorState) :
    (setPw b s).winSizeX = s.winSizeX := rfl

/-- The common tail of the insertion path (buffer rebuild, cursor
advance, word-wrap jump) commutes with flipping pw_mode. -/
theorem insertTail_setPw (b : Bool) (cw cww : Str) (u : EditorState) :
    ((bufferSet (setPw b u)).bind fun s4 =>
        (right s4).bind (wordWrapJump cw cww)) =
      ((bufferSet u).bind fun s4 =>
        (right s4).bind (wordWrapJump cw cww)).map (setPw b) := by
  rw [bufferSet_setPw]
  cases h : bufferSet u with
  | none => rfl
  | some v =>
    simp only [Option.map_some', Option.some_bind]
    rw [right_setPw]
    cases hr : right v with
    | none => rfl
    | some t =>
      simp only [Option.map_some', Option.some_bind]
      exact wordWrapJump_setPw cw cww b t

theorem insertCharCh_setPw (c : Char) (b : Bool) (s : EditorState) :
    insertCharCh c (setPw b s) = (insertCharCh c s).map (setPw b) := by
  simp only [insertCharCh, setPw_text, setPw_bufferList, setPw_bufferIdxY,
    setPw_bufferIdxX, setPw_winSizeX, Option.bind_eq_bind]
  cases h1 : pyGet s.bufferList s.bufferIdxY with
  | none => rfl
  | some e =>
    simp only [h1, Option.some_bind]
    cases h2 : s.text.get? e.1 with
    | none => rfl
    | some lineA =>
      simp only [h2, Option.some_bind]
      cases h3 : pySet lineA e.2.1 (pyInsert e.2.2 s.bufferIdxX c) with
      | none => rfl
      | some lineB =>
        simp only [h3, Option.some_bind]
        cases h4 : pySet s.text e.1 lineB with
        | none => rfl
        | some textA =>
          simp only [h4, Option.some_bind]
          cases h5 : textA.get? e.1 with
          | none => rfl
          | some lnRows =>
            simp only [h5, Option.some_bind]
            cases h6 : pySet textA e.1
                (if wrapL (s.winSizeX - 1).toNat (joinSp lnRows) = [] then [[]]
                 else wrapL (s.winSizeX - 1).toNat (joinSp lnRows)) with
            | none => rfl
            | some textB =>
              simp only [h6, Option.some_bind]
              cases h7 : (if wrapL (s.winSizeX - 1).toNat (joinSp lnRows) = [] then [[]]
                  else wrapL (s.winSizeX - 1).toNat (joinSp lnRows)).get? e.2.1 with
              | none => rfl
              | some rowAfter =>
                simp only [h7, Option.some_bind]
                have hsc : (pyInsert e.2.2 s.bufferIdxX c).length -
                    (rstripWs (pyInsert e.2.2 s.bufferIdxX c)).length + 1 ≠ 0 := by
                  omega
                rw [if_pos hsc, if_pos hsc]
                cases h8 : textB.get? e.1 with
                | none => rfl
                | some rows2 =>
                  simp only [h8, Option.some_bind]
                  cases h9 : rows2.get? e.2.1 with
                  | none => rfl
                  | some row2 =>
                    simp only [h9, Option.some_bind]
                    cases h10 : pySet rows2 e.2.1 (row2 ++ spaces
                        ((pyInsert e.2.2 s.bufferIdxX c).length -
                         (rstripWs (pyInsert e.2.2 s.bufferIdxX c)).length + 1)) with
                    | none => rfl
                    | some rows3 =>
                      simp only [h10, Option.some_bind]
                      cases h11 : pySet textB e.1 rows3 with
                      | none => rfl
                      | some textC =>
                        simp only [h11, Option.some_bind, Option.pure_def]
                        exact insertTail_setPw b
                          (getCurWord
                            { s with
                              text := textA
                              spaceCounter :=
                                (pyInsert e.2.2 s.bufferIdxX c).length -
                                  (rstripWs (pyInsert e.2.2 s.bufferIdxX c)).length + 1 }
                            (pyInsert e.2.2 s.bufferIdxX c) true)
                          (getCurWord
                            { s with
                              text := textB
                              spaceCounter :=
                                (pyInsert e.2.2 s.bufferIdxX c).length -
                                  (rstripWs (pyInsert e.2.2 s.bufferIdxX c)).length + 1 }
                            rowAfter true)
                          { s with
                            text := textC
                            spaceCounter :=
                              (pyInsert e.2.2 s.bufferIdxX c).length -
                                (rstripWs (pyInsert e.2.2 s.bufferIdxX c)).length + 1 }

/-- One run-loop turn on an undispatched (insertion) key commutes with
flipping pw_mode. -/
theorem stepEditing_setPw (c : Char) (b : Bool) (s : EditorState)
    (h : lookupChar c = none) :
    stepEditing (Key.ch c) (setPw b s) = (stepEditing (Key.ch c) s).map (setPw b) := by
  simp only [stepEditing, runStep, getKeyStep, lookupKey, h, insertChar]
  rw [insertCharCh_setPw]
  cases hi : insertCharCh c s with
  | none => rfl
  | some t =>
    simp only [Option.map_some', Option.map_map, Option.bind_eq_bind,
      Option.some_bind, Function.comp]
    rw [bufferSet_setPw]
    cases hb : bufferSet t with
    | none => rfl
    | some u => rfl

theorem applyInserts_setPw : ∀ (cs : List Char) (s : EditorState) (b : Bool),
    (∀ c ∈ cs, lookupChar c = none) →
    applyInserts cs (setPw b s) = (applyInserts cs s).map (setPw b) := by
  intro cs
  induction cs with
  | nil => intro s b _; rfl
  | cons c cs ih =>
    intro s b h
    simp only [applyInserts]
    rw [stepEditing_setPw c b s (h c (by simp))]
    cases ht : stepEditing (Key.ch c) s with
    | none => rfl
    | some t =>
      simp only [Option.map_some', Option.some_bind]
      exact ih t b (fun x hx => h x (by simp [hx]))

/-- C8: masked-mode noninterference.  Flipping pw_mode before a
sequence of insertion keystrokes never changes the resulting document
text, and a masked editor's display emits no draw-row command. -/
theorem C8_masked_noninterference (cs : List Char) (s : EditorState)
    (b1 b2 : Bool) (hins : ∀ c ∈ cs, lookupChar c = none) :
    (applyInserts cs (setPw b1 s)).map EditorState.text =
      (applyInserts cs (setPw b2 s)).map EditorState.text ∧
    (∀ u : EditorState, u.pwMode = true →
      ∀ y t, DrawCmd.drawRow y t ∉ displayCmds u) := by
  constructor
  · rw [applyInserts_setPw cs s b1 hins, applyInserts_setPw cs s b2 hins]
    cases applyInserts cs s <;> simp [setPw]
  · intro u hpw y t hmem
    simp [displayCmds, hpw] at hmem

theorem C8_masked_noninterference_witness :
    (applyInserts ['a'] (setPw true c5w)).map EditorState.text =
      (applyInserts ['a'] (setPw false c5w)).map EditorState.text ∧
    (∀ u : EditorState, u.pwMode = true →
      ∀ y t, DrawCmd.drawRow y t ∉ displayCmds u) :=
  C8_masked_noninterference ['a'] c5w true false (by decide)

end KeepasscEditor
